import Mathlib

/-!
# Verification of the bitcom envelope scanner/builder and its sub-protocol decoders

This development embeds the core of the `template/bitcom` package — the
envelope scanner (`Decode`, `findReturn`, `findPipe`), the envelope builder
(`Lock`), the AIP canonicalizer (`validateAip`), the BAP decoder
(`DecodeBAP`) and the SIGMA decoders/verifiers (`DecodeSIGMA`,
`VerifyMessageSignature`, `VerifyTransactionSignature`, `getInputHash`,
`getDataHash`, `getMessageHash`) — and proves properties of the embedding.

Bytes are modelled as natural numbers (all values produced by the code are
< 256); Go byte slices and Go strings are both `List Nat`; a nil pointer
result is `Option.none`.  External capabilities (SHA-256, base64 decoding,
`bsm.VerifyMessage`) are passed as explicit function parameters.
-/

namespace BSV

/-- Byte string of an ASCII literal (Go strings are byte strings). -/
def ascii (s : String) : List Nat := s.data.map (fun c => c.toNat)

/-- One decoded script token, mirroring go-sdk's `ScriptChunk`:
the opcode byte and the push payload (empty for non-push opcodes). -/
structure ScriptOp where
  op : Nat
  data : List Nat
deriving DecidableEq, Repr

/-- Modelled from the spec: the go-sdk script tokenizer (`Script.ReadOp`),
reading one token from the byte stream `rest`.  The spec describes the
input as "a sequence of single-byte opcodes and length-prefixed push
operations (1-byte length, or OP_PUSHDATA1/2/4 variable-length prefixes)".
Returns the token and the number of bytes consumed, or `none` on a
truncated push — in which case the cursor is NOT advanced, the behaviour
documented by the repository's fuzz test ("The go-sdk script parser has a
bug that causes infinite loops on truncated input",
`bitcom_fuzz_test.go`).  Opcode values: `0x4c = 76` is OP_PUSHDATA1,
`77` OP_PUSHDATA2, `78` OP_PUSHDATA4; `1..75` push that many raw bytes;
every other byte is a plain one-byte opcode with no data.  PUSHDATA
length prefixes are little-endian. -/
def readOpCore : List Nat → Option (ScriptOp × Nat)
  | [] => none
  | b :: rest =>
    if b = 76 then
      if rest.length < 1 then none
      else
        let l := rest.getD 0 0
        if rest.length < 1 + l then none
        else some (⟨76, (rest.drop 1).take l⟩, 2 + l)
    else if b = 77 then
      if rest.length < 2 then none
      else
        let l := rest.getD 0 0 + 256 * rest.getD 1 0
        if rest.length < 2 + l then none
        else some (⟨77, (rest.drop 2).take l⟩, 3 + l)
    else if b = 78 then
      if rest.length < 4 then none
      else
        let l := rest.getD 0 0 + 256 * rest.getD 1 0 + 65536 * rest.getD 2 0 +
          16777216 * rest.getD 3 0
        if rest.length < 4 + l then none
        else some (⟨78, (rest.drop 4).take l⟩, 5 + l)
    else if 1 ≤ b ∧ b ≤ 75 then
      if rest.length < b then none
      else some (⟨b, rest.take b⟩, 1 + b)
    else some (⟨b, []⟩, 1)

/-- `Script.ReadOp` at an absolute position: reads the token starting at
`pos` and returns it with the new absolute position.  `none` means the Go
call returns an error and leaves the position unchanged. -/
def readOp (s : List Nat) (pos : Nat) : Option (ScriptOp × Nat) :=
  (readOpCore (s.drop pos)).map (fun r => (r.1, pos + r.2))

/-- A successful read consumes at least one byte and stays in bounds. -/
theorem readOpCore_consumed {l : List Nat} {op : ScriptOp} {c : Nat}
    (h : readOpCore l = some (op, c)) : 1 ≤ c ∧ c ≤ l.length := by
  match l with
  | [] => exact absurd h (by simp [readOpCore])
  | b :: rest =>
    simp only [readOpCore] at h
    split_ifs at h with h76 hl1 hl2 h77 hl3 hl4 h78 hl5 hl6 hsm hl7
    all_goals simp only [Option.some.injEq, Prod.mk.injEq] at h
    all_goals obtain ⟨h1, h2⟩ := h
    all_goals subst h2
    all_goals simp only [List.length_cons]
    all_goals omega

/-- A successful absolute read advances the position, staying in bounds. -/
theorem readOp_lt {s : List Nat} {pos : Nat} {op : ScriptOp} {j : Nat}
    (h : readOp s pos = some (op, j)) : pos < j ∧ j ≤ s.length := by
  simp only [readOp, Option.map_eq_some'] at h
  obtain ⟨⟨op', c⟩, hcore, heq⟩ := h
  simp only [Prod.mk.injEq] at heq
  obtain ⟨-, hj⟩ := heq
  have hc := readOpCore_consumed hcore
  have hlen : (s.drop pos).length = s.length - pos := List.length_drop pos s
  have hpos : pos ≤ s.length := by
    by_contra hcon
    have : s.drop pos = [] := List.drop_eq_nil_of_le (by omega)
    rw [this] at hcore
    exact absurd hcore (by simp [readOpCore])
  omega

/-- Reading a token is unaffected by bytes appended after the stream,
as long as the token fits in the original stream. -/
theorem readOpCore_append {l m : List Nat} {op : ScriptOp} {c : Nat}
    (h : readOpCore l = some (op, c)) : readOpCore (l ++ m) = some (op, c) := by
  match l with
  | [] => exact absurd h (by simp [readOpCore])
  | b :: rest =>
    have hca : (b :: rest) ++ m = b :: (rest ++ m) := rfl
    rw [hca]
    simp only [readOpCore] at h ⊢
    have hgd : ∀ i, i < rest.length → (rest ++ m).getD i 0 = rest.getD i 0 := by
      intro i hi
      simp [List.getD_eq_getElem?_getD, List.getElem?_append_left hi]
    split_ifs at h with h76 hl1 hl2 h77 hl3 hl4 h78 hl5 hl6 hsm hl7
    all_goals simp only [Option.some.injEq, Prod.mk.injEq] at h
    · -- PUSHDATA1 success
      rw [if_pos h76]
      rw [if_neg (by simp only [List.length_append]; omega)]
      rw [hgd 0 (by omega)]
      rw [if_neg (by simp only [List.length_append]; omega)]
      rw [List.drop_append_of_le_length (by omega),
        List.take_append_of_le_length (by simp only [List.length_drop]; omega)]
      simp only [Option.some.injEq, Prod.mk.injEq]
      exact h
    · -- PUSHDATA2 success
      rw [if_neg h76, if_pos h77]
      rw [if_neg (by simp only [List.length_append]; omega)]
      rw [hgd 0 (by omega), hgd 1 (by omega)]
      rw [if_neg (by simp only [List.length_append]; omega)]
      rw [List.drop_append_of_le_length (by omega),
        List.take_append_of_le_length (by simp only [List.length_drop]; omega)]
      simp only [Option.some.injEq, Prod.mk.injEq]
      exact h
    · -- PUSHDATA4 success
      rw [if_neg h76, if_neg h77, if_pos h78]
      rw [if_neg (by simp only [List.length_append]; omega)]
      rw [hgd 0 (by omega), hgd 1 (by omega), hgd 2 (by omega), hgd 3 (by omega)]
      rw [if_neg (by simp only [List.length_append]; omega)]
      rw [List.drop_append_of_le_length (by omega),
        List.take_append_of_le_length (by simp only [List.length_drop]; omega)]
      simp only [Option.some.injEq, Prod.mk.injEq]
      exact h
    · -- short push success
      rw [if_neg h76, if_neg h77, if_neg h78, if_pos hsm]
      rw [if_neg (by simp only [List.length_append]; omega)]
      rw [List.take_append_of_le_length (by omega)]
      simp only [Option.some.injEq, Prod.mk.injEq]
      exact h
    · -- plain opcode
      rw [if_neg h76, if_neg h77, if_neg h78, if_neg hsm]
      simp only [Option.some.injEq, Prod.mk.injEq]
      exact h

/-- Full tokenization relation: `Toks l ops` holds when the byte stream `l`
splits exactly into the successive tokens `ops` (each step is one
successful `readOpCore`, and the stream is consumed to its very end). -/
inductive Toks : List Nat → List ScriptOp → Prop
  | nil : Toks [] []
  | cons {l : List Nat} {op : ScriptOp} {c : Nat} {ops : List ScriptOp} :
      readOpCore l = some (op, c) → Toks (l.drop c) ops → Toks l (op :: ops)

/-- A token stream never has more tokens than bytes. -/
theorem Toks.length_le {l : List Nat} {ops : List ScriptOp} (h : Toks l ops) :
    ops.length ≤ l.length := by
  induction h with
  | nil => simp
  | cons hread htl ih =>
    have hc := readOpCore_consumed hread
    simp only [List.length_cons]
    simp only [List.length_drop] at ih
    omega

/-- Modelled from the spec: go-sdk's `PushDataPrefix` — the length prefix
emitted by `AppendPushData` ("Emits ... `push(tag)`"): a single length
byte up to 75 bytes of data, else an OP_PUSHDATA1/2/4 opcode followed by
the little-endian length. -/
def pushDataPrefixBytes (d : List Nat) : List Nat :=
  if d.length ≤ 75 then [d.length]
  else if d.length ≤ 255 then [76, d.length]
  else if d.length ≤ 65535 then [77, d.length % 256, d.length / 256]
  else [78, d.length % 256, d.length / 256 % 256, d.length / 65536 % 256,
    d.length / 16777216 % 256]

/-- Modelled from the spec: go-sdk's `Script.AppendPushData`.  Data larger
than 0xFFFFFFFF cannot be push-encoded: the Go call returns an error that
`Lock` ignores, appending nothing. -/
def pushData (d : List Nat) : List Nat :=
  if d.length ≤ 4294967295 then pushDataPrefixBytes d ++ d else []

/-- Evaluation equation: reading from an OP_PUSHDATA1 byte. -/
theorem readOpCore_cons_76 (rest : List Nat) :
    readOpCore (76 :: rest) =
      if rest.length < 1 then none
      else if rest.length < 1 + rest.getD 0 0 then none
      else some (⟨76, (rest.drop 1).take (rest.getD 0 0)⟩, 2 + rest.getD 0 0) := rfl

/-- Evaluation equation: reading from an OP_PUSHDATA2 byte. -/
theorem readOpCore_cons_77 (rest : List Nat) :
    readOpCore (77 :: rest) =
      if rest.length < 2 then none
      else if rest.length < 2 + (rest.getD 0 0 + 256 * rest.getD 1 0) then none
      else some (⟨77, (rest.drop 2).take (rest.getD 0 0 + 256 * rest.getD 1 0)⟩,
        3 + (rest.getD 0 0 + 256 * rest.getD 1 0)) := rfl

/-- Evaluation equation: reading from an OP_PUSHDATA4 byte. -/
theorem readOpCore_cons_78 (rest : List Nat) :
    readOpCore (78 :: rest) =
      if rest.length < 4 then none
      else if rest.length < 4 + (rest.getD 0 0 + 256 * rest.getD 1 0 +
        65536 * rest.getD 2 0 + 16777216 * rest.getD 3 0) then none
      else some (⟨78, (rest.drop 4).take (rest.getD 0 0 + 256 * rest.getD 1 0 +
          65536 * rest.getD 2 0 + 16777216 * rest.getD 3 0)⟩,
        5 + (rest.getD 0 0 + 256 * rest.getD 1 0 + 65536 * rest.getD 2 0 +
          16777216 * rest.getD 3 0)) := rfl

/-- Evaluation equation: reading a direct push opcode (1..75). -/
theorem readOpCore_cons_small {b : Nat} (h1 : 1 ≤ b) (h2 : b ≤ 75) (rest : List Nat) :
    readOpCore (b :: rest) =
      if rest.length < b then none else some (⟨b, rest.take b⟩, 1 + b) := by
  simp only [readOpCore]
  rw [if_neg (by omega), if_neg (by omega), if_neg (by omega), if_pos ⟨h1, h2⟩]

/-- Evaluation equation: reading a plain (non-push) opcode byte. -/
theorem readOpCore_cons_op {b : Nat} (h : b = 0 ∨ (76 ≤ b ∧ b ≠ 76 ∧ b ≠ 77 ∧ b ≠ 78))
    (rest : List Nat) : readOpCore (b :: rest) = some (⟨b, []⟩, 1) := by
  simp only [readOpCore]
  rw [if_neg (by omega), if_neg (by omega), if_neg (by omega), if_neg (by omega)]

/-- The opcode byte under which `pushData d` is read back. -/
def pushOpOf (d : List Nat) : Nat :=
  if d.length = 0 then 0
  else if d.length ≤ 75 then d.length
  else if d.length ≤ 255 then 76
  else if d.length ≤ 65535 then 77
  else 78

/-- Reading back a built push yields exactly the pushed bytes and consumes
exactly the encoding, whatever follows it. -/
theorem readOpCore_pushData (d m : List Nat) (h : d.length ≤ 4294967295) :
    readOpCore (pushData d ++ m) = some (⟨pushOpOf d, d⟩, (pushData d).length) := by
  by_cases h0 : d.length = 0
  · have hd : d = [] := List.length_eq_zero.mp h0
    subst hd
    simp [pushData, pushDataPrefixBytes, pushOpOf, readOpCore]
  · by_cases h75 : d.length ≤ 75
    · have hpre : pushData d = [d.length] ++ d := by
        rw [pushData, if_pos h, pushDataPrefixBytes, if_pos h75]
      have hop : pushOpOf d = d.length := by
        rw [pushOpOf, if_neg h0, if_pos h75]
      rw [hpre, hop]
      have hca : ([d.length] ++ d) ++ m = d.length :: (d ++ m) := by simp
      rw [hca, readOpCore_cons_small (by omega) h75]
      rw [if_neg (by simp only [List.length_append]; omega)]
      rw [List.take_append_of_le_length (by omega), List.take_length]
      simp only [List.length_append, List.length_cons, List.length_nil,
        Option.some.injEq, Prod.mk.injEq]
    · by_cases h255 : d.length ≤ 255
      · have hpre : pushData d = [76, d.length] ++ d := by
          rw [pushData, if_pos h, pushDataPrefixBytes, if_neg h75, if_pos h255]
        have hop : pushOpOf d = 76 := by
          rw [pushOpOf, if_neg h0, if_neg h75, if_pos h255]
        rw [hpre, hop]
        have hca : ([76, d.length] ++ d) ++ m = 76 :: d.length :: (d ++ m) := by simp
        rw [hca, readOpCore_cons_76]
        rw [if_neg (by simp)]
        have hget : (d.length :: (d ++ m)).getD 0 0 = d.length := rfl
        rw [hget]
        rw [if_neg (by simp only [List.length_cons, List.length_append]; omega)]
        have hdrop : (d.length :: (d ++ m)).drop 1 = d ++ m := rfl
        rw [hdrop, List.take_append_of_le_length (by omega), List.take_length]
        simp only [List.length_append, List.length_cons, List.length_nil,
          Option.some.injEq, Prod.mk.injEq]
      · by_cases h65535 : d.length ≤ 65535
        · have hpre : pushData d = [77, d.length % 256, d.length / 256] ++ d := by
            rw [pushData, if_pos h, pushDataPrefixBytes, if_neg h75, if_neg h255,
              if_pos h65535]
          have hop : pushOpOf d = 77 := by
            rw [pushOpOf, if_neg h0, if_neg h75, if_neg h255, if_pos h65535]
          rw [hpre, hop]
          have hca : ([77, d.length % 256, d.length / 256] ++ d) ++ m =
              77 :: d.length % 256 :: d.length / 256 :: (d ++ m) := by simp
          rw [hca, readOpCore_cons_77]
          rw [if_neg (by simp)]
          have hget0 : (d.length % 256 :: d.length / 256 :: (d ++ m)).getD 0 0 =
            d.length % 256 := rfl
          have hget1 : (d.length % 256 :: d.length / 256 :: (d ++ m)).getD 1 0 =
            d.length / 256 := rfl
          rw [hget0, hget1]
          have hrec : d.length % 256 + 256 * (d.length / 256) = d.length := by omega
          rw [hrec]
          rw [if_neg (by simp only [List.length_cons, List.length_append]; omega)]
          have hdrop : (d.length % 256 :: d.length / 256 :: (d ++ m)).drop 2 =
            d ++ m := rfl
          rw [hdrop, List.take_append_of_le_length (by omega), List.take_length]
          simp only [List.length_append, List.length_cons, List.length_nil,
            Option.some.injEq, Prod.mk.injEq]
        · have hpre : pushData d = [78, d.length % 256, d.length / 256 % 256,
              d.length / 65536 % 256, d.length / 16777216 % 256] ++ d := by
            rw [pushData, if_pos h, pushDataPrefixBytes, if_neg h75, if_neg h255,
              if_neg h65535]
          have hop : pushOpOf d = 78 := by
            rw [pushOpOf, if_neg h0, if_neg h75, if_neg h255, if_neg h65535]
          rw [hpre, hop]
          have hca : ([78, d.length % 256, d.length / 256 % 256, d.length / 65536 % 256,
              d.length / 16777216 % 256] ++ d) ++ m =
              78 :: d.length % 256 :: d.length / 256 % 256 :: d.length / 65536 % 256 ::
                d.length / 16777216 % 256 :: (d ++ m) := by simp
          rw [hca, readOpCore_cons_78]
          rw [if_neg (by simp)]
          have hget0 : (d.length % 256 :: d.length / 256 % 256 ::
            d.length / 65536 % 256 :: d.length / 16777216 % 256 :: (d ++ m)).getD 0 0 =
            d.length % 256 := rfl
          have hget1 : (d.length % 256 :: d.length / 256 % 256 ::
            d.length / 65536 % 256 :: d.length / 16777216 % 256 :: (d ++ m)).getD 1 0 =
            d.length / 256 % 256 := rfl
          have hget2 : (d.length % 256 :: d.length / 256 % 256 ::
            d.length / 65536 % 256 :: d.length / 16777216 % 256 :: (d ++ m)).getD 2 0 =
            d.length / 65536 % 256 := rfl
          have hget3 : (d.length % 256 :: d.length / 256 % 256 ::
            d.length / 65536 % 256 :: d.length / 16777216 % 256 :: (d ++ m)).getD 3 0 =
            d.length / 16777216 % 256 := rfl
          rw [hget0, hget1, hget2, hget3]
          have hrec : d.length % 256 + 256 * (d.length / 256 % 256) +
              65536 * (d.length / 65536 % 256) + 16777216 * (d.length / 16777216 % 256) =
              d.length := by omega
          rw [hrec]
          rw [if_neg (by simp only [List.length_cons, List.length_append]; omega)]
          have hdrop : (d.length % 256 :: d.length / 256 % 256 ::
            d.length / 65536 % 256 :: d.length / 16777216 % 256 :: (d ++ m)).drop 4 =
            d ++ m := rfl
          rw [hdrop, List.take_append_of_le_length (by omega), List.take_length]
          simp only [List.length_append, List.length_cons, List.length_nil,
            Option.some.injEq, Prod.mk.injEq]

/-- A built push is never empty (its length prefix is at least one byte),
provided the data was encodable at all. -/
theorem pushData_ne_nil {d : List Nat} (h : d.length ≤ 4294967295) :
    1 ≤ (pushData d).length := by
  rw [pushData, if_pos h, pushDataPrefixBytes]
  split_ifs <;> simp

/-- A token passes `findPipe`'s separator test exactly when go-sdk's
`op.Op == OpDATA1 && op.Data[0] == '|'` does: the opcode byte is the
one-byte push `0x01` and its single data byte is `0x7c`. -/
def isPipeOp (op : ScriptOp) : Bool := op.op = 1 && op.data.headD 0 = 124

/-- One execution of `findReturn`'s scan loop (bitcom.go:77-88), with an
explicit iteration budget.  Each successful read either returns the start
position of the first OP_RETURN (`0x6a = 106`) token or advances the
cursor; a failed read leaves the cursor unchanged in Go, so the loop never
terminates — modelled by returning `none` (divergence) immediately.
`some none` is Go's `-1` (no marker found). -/
def findReturnF : Nat → List Nat → Nat → Option (Option Nat)
  | 0, _, _ => none
  | fuel+1, s, i =>
    if i < s.length then
      match readOp s i with
      | none => none
      | some (op, j) => if op.op = 106 then some (some i) else findReturnF fuel s j
    else some none

/-- `findReturn` (bitcom.go:77-88).  The budget `s.length + 1` is enough
for every terminating run, because every loop iteration that continues
advances the cursor by at least one byte. -/
def findReturn (s : List Nat) : Option (Option Nat) := findReturnF (s.length + 1) s 0

/-- The `findReturn` loop counted step by step, exactly as Go executes it:
a failed read repeats the same iteration with the cursor unchanged.
`findReturnSteps fuel s i = none` for every `fuel` means the Go loop runs
forever. -/
def findReturnSteps : Nat → List Nat → Nat → Option (Option Nat)
  | 0, _, _ => none
  | fuel+1, s, i =>
    if i < s.length then
      match readOp s i with
      | none => findReturnSteps fuel s i
      | some (op, j) => if op.op = 106 then some (some i) else findReturnSteps fuel s j
    else some none

/-- One execution of `findPipe`'s scan loop (bitcom.go:90-101), with an
explicit iteration budget; same conventions as `findReturnF`.  It returns
the start position of the first standalone one-byte `|` push at or after
the start position. -/
def findPipeF : Nat → List Nat → Nat → Option (Option Nat)
  | 0, _, _ => none
  | fuel+1, s, i =>
    if i < s.length then
      match readOp s i with
      | none => none
      | some (op, j) => if isPipeOp op then some (some i) else findPipeF fuel s j
    else some none

/-- `findPipe` (bitcom.go:90-101). -/
def findPipe (s : List Nat) (start : Nat) : Option (Option Nat) :=
  findPipeF (s.length + 1) s start

/-- One protocol entry of the envelope (`BitcomProtocol`): the tag bytes
(Go keeps them as a string), the raw payload bytes, and the byte offset of
the tag token in the script. -/
structure BitcomProtocol where
  protocol : List Nat
  script : List Nat
  pos : Nat
deriving DecidableEq, Repr

/-- The envelope (`Bitcom`): ordered protocol entries plus the opaque
script prefix kept in front of the data-carrier marker. -/
structure Bitcom where
  protocols : List BitcomProtocol
  scriptPrefix : List Nat
deriving DecidableEq, Repr

/-- The entry-scanning loop of `Decode` (bitcom.go:38-58), with an
explicit iteration budget (every continuing iteration advances the cursor
past the separator, so `s.length + 1` rounds always suffice).  Mirrors the
Go loop body exactly: `findPipe` first, then `ReadOp` for the tag (an
error returns the envelope collected so far), then the payload is bounded
by the separator position, end of script, or an inconsistent separator
position (`pipePos < pos`, which appends the tag with a nil payload).
`none` propagates a diverging `findPipe`. -/
def decodeLoopF : Nat → List Nat → Nat → List BitcomProtocol → Option (List BitcomProtocol)
  | 0, _, _, _ => none
  | fuel+1, s, pos, acc =>
    if pos < s.length then
      match findPipe s pos with
      | none => none
      | some pipePos =>
        match readOp s pos with
        | none => some acc
        | some (op, pos1) =>
          match pipePos with
          | none => some (acc ++ [⟨op.data, s.drop pos1, pos⟩])
          | some pp =>
            if pp < pos1 then some (acc ++ [⟨op.data, [], pos⟩])
            else decodeLoopF fuel s (pp + 2) (acc ++ [⟨op.data, (s.drop pos1).take (pp - pos1), pos⟩])
    else some acc

/-- Outcome of `Decode`: Go returns a nil pointer when no marker is found
(the `NoMarker` outcome) and an envelope otherwise. -/
inductive DecodeResult
  | noMarker
  | env (b : Bitcom)
deriving DecidableEq, Repr

/-- `Decode` (bitcom.go:17-60) on a non-nil script.  The prefix is Go's
`(*scr)[:pos-1]` for a marker at `pos > 0` — one byte short of the marker
— and nil when the marker starts the script.  The outer `none` means the
Go call never returns (its `findReturn` or `findPipe` loops forever on a
truncated push). -/
def Decode (s : List Nat) : Option DecodeResult :=
  match findReturn s with
  | none => none
  | some none => some .noMarker
  | some (some pos) =>
    match decodeLoopF (s.length + 1) s (pos + 1) [] with
    | none => none
    | some protos =>
      some (.env ⟨protos, if 0 < pos then s.take (pos - 1) else []⟩)

/-- The entry section emitted by `Lock` (bitcom.go:62-75): for each entry
a push of the tag followed by the raw payload bytes, with a one-byte `|`
push between consecutive entries. -/
def lockEntriesList : List BitcomProtocol → List Nat
  | [] => []
  | [p] => pushData p.protocol ++ p.script
  | p :: q :: rest =>
    pushData p.protocol ++ p.script ++ pushData [124] ++ lockEntriesList (q :: rest)

/-- `Lock` (bitcom.go:62-75): the prefix bytes, then — only if there is at
least one entry — the OP_RETURN marker and the entry section. -/
def Lock (b : Bitcom) : List Nat :=
  if b.protocols = [] then b.scriptPrefix
  else b.scriptPrefix ++ [106] ++ lockEntriesList b.protocols

/-- Modelled from the spec: go-sdk's `DecodeScript` / `Script.Chunks`,
the full tokenization used by the sub-protocol decoders — repeated
`ReadOp` until the end of the script, failing if any read fails.  The
budget `s.length + 1` always suffices because every successful read
consumes at least one byte. -/
def scanOps : Nat → List Nat → Nat → Option (List ScriptOp)
  | 0, _, _ => none
  | fuel+1, s, pos =>
    if pos < s.length then
      match readOp s pos with
      | none => none
      | some (op, j) => (scanOps fuel s j).map (fun l => op :: l)
    else some []

/-- The token list of a script, or `none` if it has a truncated push. -/
def tokens (s : List Nat) : Option (List ScriptOp) := scanOps (s.length + 1) s 0

/-- Position arithmetic: dropping past a known remainder. -/
theorem drop_shift {s : List Nat} {i c : Nat} {l : List Nat} (hd : s.drop i = l) :
    s.drop (i + c) = l.drop c := by
  subst hd
  rw [List.drop_drop, Nat.add_comm]

/-- An absolute read at a position whose remainder is known. -/
theorem readOp_of_core {s l : List Nat} {i c : Nat} {op : ScriptOp}
    (hd : s.drop i = l) (h : readOpCore l = some (op, c)) :
    readOp s i = some (op, i + c) := by
  simp [readOp, hd, h]

/-- A position with a readable token is inside the script. -/
theorem lt_of_drop_readOp {s l : List Nat} {i c : Nat} {op : ScriptOp}
    (hd : s.drop i = l) (h : readOpCore l = some (op, c)) : i < s.length := by
  have hc := readOpCore_consumed h
  have hl : (s.drop i).length = s.length - i := List.length_drop i s
  rw [hd] at hl
  omega

/-- Unfolding `findPipeF` at the end of the script. -/
theorem findPipeF_exit {s : List Nat} {i : Nat} (fuel : Nat) (hi : ¬ i < s.length) :
    findPipeF (fuel + 1) s i = some none := by
  simp only [findPipeF, if_neg hi]

/-- Unfolding `findPipeF` over one successfully read token. -/
theorem findPipeF_step {s : List Nat} {i j : Nat} {op : ScriptOp} (fuel : Nat)
    (hi : i < s.length) (h : readOp s i = some (op, j)) :
    findPipeF (fuel + 1) s i =
      if isPipeOp op then some (some i) else findPipeF fuel s j := by
  simp only [findPipeF, if_pos hi, h]

/-- Unfolding `findReturnF` at the end of the script. -/
theorem findReturnF_exit {s : List Nat} {i : Nat} (fuel : Nat) (hi : ¬ i < s.length) :
    findReturnF (fuel + 1) s i = some none := by
  simp only [findReturnF, if_neg hi]

/-- Unfolding `findReturnF` over one successfully read token. -/
theorem findReturnF_step {s : List Nat} {i j : Nat} {op : ScriptOp} (fuel : Nat)
    (hi : i < s.length) (h : readOp s i = some (op, j)) :
    findReturnF (fuel + 1) s i =
      if op.op = 106 then some (some i) else findReturnF fuel s j := by
  simp only [findReturnF, if_pos hi, h]

/-- Scanning a pipe-free fully tokenizable remainder finds no separator. -/
theorem findPipeF_scan_none {l : List Nat} {ops : List ScriptOp} (ht : Toks l ops)
    (hnp : ∀ o ∈ ops, isPipeOp o = false) :
    ∀ (s : List Nat) (i fuel : Nat), s.drop i = l → ops.length < fuel →
      findPipeF fuel s i = some none := by
  induction ht with
  | nil =>
    intro s i fuel hd hfuel
    match fuel, hfuel with
    | fuel + 1, _ =>
      have hle : s.length ≤ i := by
        have := List.length_drop i s
        rw [hd] at this
        by_contra hcon
        simp at this
        omega
      exact findPipeF_exit fuel (by omega)
  | cons hread htl ih =>
    intro s i fuel hd hfuel
    match fuel, hfuel with
    | fuel + 1, hf =>
      have hi : i < s.length := lt_of_drop_readOp hd hread
      rw [findPipeF_step fuel hi (readOp_of_core hd hread)]
      rw [if_neg (by simp [hnp _ (List.mem_cons_self _ _)])]
      exact ih (fun o ho => hnp o (List.mem_cons_of_mem _ ho)) s _ fuel
        (drop_shift hd) (by simp only [List.length_cons] at hf; omega)

/-- Scanning a pipe-free fully tokenizable region followed by a standalone
one-byte pipe push finds the separator exactly at the region boundary. -/
theorem findPipeF_scan_found {l : List Nat} {ops : List ScriptOp} (ht : Toks l ops)
    (hnp : ∀ o ∈ ops, isPipeOp o = false) :
    ∀ (s m : List Nat) (i fuel : Nat), s.drop i = l ++ 1 :: 124 :: m →
      ops.length < fuel → findPipeF fuel s i = some (some (i + l.length)) := by
  induction ht with
  | nil =>
    intro s m i fuel hd hfuel
    match fuel, hfuel with
    | fuel + 1, _ =>
      simp only [List.nil_append] at hd
      have hread : readOpCore (1 :: 124 :: m) = some (⟨1, [124]⟩, 2) := by
        rw [readOpCore_cons_small (by omega) (by omega)]
        simp
      have hi : i < s.length := lt_of_drop_readOp hd hread
      rw [findPipeF_step fuel hi (readOp_of_core hd hread)]
      rw [if_pos (by simp [isPipeOp])]
      simp
  | cons hread htl ih =>
    rename_i l' op c ops'
    intro s m i fuel hd hfuel
    match fuel, hfuel with
    | fuel + 1, hf =>
      have hread2 : readOpCore (l' ++ 1 :: 124 :: m) = some (op, c) :=
        readOpCore_append hread
      have hi : i < s.length := lt_of_drop_readOp hd hread2
      rw [findPipeF_step fuel hi (readOp_of_core hd hread2)]
      rw [if_neg (by simp [hnp _ (List.mem_cons_self _ _)])]
      have hc := readOpCore_consumed hread
      have hdrop : s.drop (i + c) = l'.drop c ++ 1 :: 124 :: m := by
        rw [drop_shift hd, List.drop_append_of_le_length (by omega)]
      have := ih (fun o ho => hnp o (List.mem_cons_of_mem _ ho)) s m (i + c) fuel
        hdrop (by simp only [List.length_cons] at hf; omega)
      rw [this]
      have : i + c + (l'.drop c).length = i + l'.length := by
        simp only [List.length_drop]
        omega
      rw [this]

/-- Scanning a marker-free fully tokenizable region followed by the
OP_RETURN byte finds the marker exactly at the region boundary. -/
theorem findReturnF_scan_found {l : List Nat} {ops : List ScriptOp} (ht : Toks l ops)
    (hnr : ∀ o ∈ ops, o.op ≠ 106) :
    ∀ (s m : List Nat) (i fuel : Nat), s.drop i = l ++ 106 :: m →
      ops.length < fuel → findReturnF fuel s i = some (some (i + l.length)) := by
  induction ht with
  | nil =>
    intro s m i fuel hd hfuel
    match fuel, hfuel with
    | fuel + 1, _ =>
      simp only [List.nil_append] at hd
      have hread : readOpCore (106 :: m) = some (⟨106, []⟩, 1) :=
        readOpCore_cons_op (by omega) m
      have hi : i < s.length := lt_of_drop_readOp hd hread
      rw [findReturnF_step fuel hi (readOp_of_core hd hread)]
      simp
  | cons hread htl ih =>
    rename_i l' op c ops'
    intro s m i fuel hd hfuel
    match fuel, hfuel with
    | fuel + 1, hf =>
      have hread2 : readOpCore (l' ++ 106 :: m) = some (op, c) :=
        readOpCore_append hread
      have hi : i < s.length := lt_of_drop_readOp hd hread2
      rw [findReturnF_step fuel hi (readOp_of_core hd hread2)]
      rw [if_neg (hnr _ (List.mem_cons_self _ _))]
      have hc := readOpCore_consumed hread
      have hdrop : s.drop (i + c) = l'.drop c ++ 106 :: m := by
        rw [drop_shift hd, List.drop_append_of_le_length (by omega)]
      have := ih (fun o ho => hnr o (List.mem_cons_of_mem _ ho)) s m (i + c) fuel
        hdrop (by simp only [List.length_cons] at hf; omega)
      rw [this]
      have : i + c + (l'.drop c).length = i + l'.length := by
        simp only [List.length_drop]
        omega
      rw [this]

/-- Scanning a marker-free fully tokenizable remainder finds no marker. -/
theorem findReturnF_scan_none {l : List Nat} {ops : List ScriptOp} (ht : Toks l ops)
    (hnr : ∀ o ∈ ops, o.op ≠ 106) :
    ∀ (s : List Nat) (i fuel : Nat), s.drop i = l → ops.length < fuel →
      findReturnF fuel s i = some none := by
  induction ht with
  | nil =>
    intro s i fuel hd hfuel
    match fuel, hfuel with
    | fuel + 1, _ =>
      have hle : s.length ≤ i := by
        have := List.length_drop i s
        rw [hd] at this
        by_contra hcon
        simp at this
        omega
      exact findReturnF_exit fuel (by omega)
  | cons hread htl ih =>
    intro s i fuel hd hfuel
    match fuel, hfuel with
    | fuel + 1, hf =>
      have hi : i < s.length := lt_of_drop_readOp hd hread
      rw [findReturnF_step fuel hi (readOp_of_core hd hread)]
      rw [if_neg (hnr _ (List.mem_cons_self _ _))]
      exact ih (fun o ho => hnr o (List.mem_cons_of_mem _ ho)) s _ fuel
        (drop_shift hd) (by simp only [List.length_cons] at hf; omega)

/-- Conditions under which an entry survives the builder/scanner round
trip: its tag is not itself the one-byte pipe payload, its tag is
push-encodable, and its payload is a fully tokenizable stream that
contains no standalone one-byte `|` push. -/
def GoodEntry (e : BitcomProtocol) : Prop :=
  e.protocol ≠ [124] ∧ e.protocol.length ≤ 4294967295 ∧
  ∃ ops, Toks e.script ops ∧ ∀ o ∈ ops, isPipeOp o = false

/-- The tag push emitted by the builder is never the pipe separator,
unless the tag is the one-byte string `|` itself. -/
theorem isPipeOp_pushOp {t : List Nat} (h : t ≠ [124]) :
    isPipeOp ⟨pushOpOf t, t⟩ = false := by
  match t with
  | [] => simp [isPipeOp, pushOpOf]
  | [a] =>
    have ha : a ≠ 124 := fun hcon => h (by rw [hcon])
    simp [isPipeOp, pushOpOf, ha]
  | a :: b :: rest2 =>
    have hop : pushOpOf (a :: b :: rest2) ≠ 1 := by
      rw [pushOpOf]
      split_ifs <;> simp_all
    simp [isPipeOp, hop]

/-- Every entry contributes at least one byte to the entry section. -/
theorem lockEntriesList_length {entries : List BitcomProtocol}
    (h : ∀ e ∈ entries, e.protocol.length ≤ 4294967295) :
    entries.length ≤ (lockEntriesList entries).length := by
  induction entries with
  | nil => simp [lockEntriesList]
  | cons e rest ih =>
    have he := pushData_ne_nil (h e (List.mem_cons_self _ _))
    match rest with
    | [] =>
      simp only [lockEntriesList, List.length_append, List.length_cons, List.length_nil]
      omega
    | q :: qs =>
      have hrest := ih (fun x hx => h x (List.mem_cons_of_mem _ hx))
      simp only [lockEntriesList, List.length_append, List.length_cons] at hrest ⊢
      omega

/-- The two bytes of a built separator, dropped. -/
theorem drop_boundary {l m : List Nat} : (l ++ 1 :: 124 :: m).drop (l.length + 2) = m := by
  have h1 : l ++ 1 :: 124 :: m = (l ++ [1, 124]) ++ m := by simp
  have h2 : l.length + 2 = (l ++ [1, 124]).length := by simp
  rw [h1, h2, List.drop_left]

/-- The scan loop of `Decode`, run over the byte region the builder emits
for a non-empty entry list, recovers exactly the tags and payloads of
those entries (appended to whatever was already collected). -/
theorem decodeLoopF_entries :
    ∀ (entries : List BitcomProtocol), entries ≠ [] →
      (∀ e ∈ entries, GoodEntry e) →
      ∀ (s : List Nat) (i fuel : Nat) (acc : List BitcomProtocol),
        s.drop i = lockEntriesList entries → entries.length < fuel →
        ∃ protos, decodeLoopF fuel s i acc = some protos ∧
          protos.map (fun p => (p.protocol, p.script)) =
            acc.map (fun p => (p.protocol, p.script)) ++
              entries.map (fun e => (e.protocol, e.script)) := by
  intro entries
  induction entries with
  | nil => intro hne; exact absurd rfl hne
  | cons e rest ih =>
    intro hne hgood s i fuel acc hd hfuel
    obtain ⟨hpipe, hlen, ops, htoks, hnp⟩ := hgood e (List.mem_cons_self _ _)
    have hpd := pushData_ne_nil hlen
    have hread : readOpCore (pushData e.protocol ++ e.script) =
        some (⟨pushOpOf e.protocol, e.protocol⟩, (pushData e.protocol).length) :=
      readOpCore_pushData _ _ hlen
    have htr : Toks (pushData e.protocol ++ e.script)
        (⟨pushOpOf e.protocol, e.protocol⟩ :: ops) := by
      refine Toks.cons hread ?_
      rw [List.drop_left]
      exact htoks
    have hnp' : ∀ o ∈ (⟨pushOpOf e.protocol, e.protocol⟩ :: ops), isPipeOp o = false := by
      intro o ho
      rcases List.mem_cons.mp ho with hh | hh
      · rw [hh]; exact isPipeOp_pushOp hpipe
      · exact hnp o hh
    have hopsle := Toks.length_le htoks
    match fuel, hfuel with
    | fuel + 1, hf =>
      match rest with
      | [] =>
        have hd1 : s.drop i = pushData e.protocol ++ e.script := by
          rw [hd]; rfl
        have hslen : (s.drop i).length = s.length - i := List.length_drop i s
        rw [hd1] at hslen
        have hi : i < s.length := by
          simp only [List.length_append] at hslen
          omega
        have hfp : findPipe s i = some none := by
          rw [findPipe]
          exact findPipeF_scan_none htr hnp' s i (s.length + 1) hd1
            (by simp only [List.length_cons, List.length_append] at hslen ⊢; omega)
        have hro : readOp s i =
            some (⟨pushOpOf e.protocol, e.protocol⟩, i + (pushData e.protocol).length) :=
          readOp_of_core hd1 hread
        have hpay : s.drop (i + (pushData e.protocol).length) = e.script := by
          rw [drop_shift hd1, List.drop_left]
        refine ⟨acc ++ [⟨e.protocol, e.script, i⟩], ?_, by simp⟩
        simp only [decodeLoopF, if_pos hi, hfp, hro, hpay]
      | q :: qs =>
        have hd1 : s.drop i = (pushData e.protocol ++ e.script) ++
            1 :: 124 :: lockEntriesList (q :: qs) := by
          rw [hd]
          show lockEntriesList (e :: q :: qs) = _
          rw [lockEntriesList]
          have hp124 : pushData [124] = [1, 124] := rfl
          rw [hp124]
          simp
        have hslen : (s.drop i).length = s.length - i := List.length_drop i s
        rw [hd1] at hslen
        have hi : i < s.length := by
          simp only [List.length_append, List.length_cons] at hslen
          omega
        have hfp : findPipe s i =
            some (some (i + (pushData e.protocol ++ e.script).length)) := by
          rw [findPipe]
          exact findPipeF_scan_found htr hnp' s _ i (s.length + 1) hd1
            (by simp only [List.length_cons, List.length_append] at hslen ⊢; omega)
        have hread2 : readOpCore ((pushData e.protocol ++ e.script) ++
            1 :: 124 :: lockEntriesList (q :: qs)) =
            some (⟨pushOpOf e.protocol, e.protocol⟩, (pushData e.protocol).length) :=
          readOpCore_append hread
        have hro : readOp s i =
            some (⟨pushOpOf e.protocol, e.protocol⟩, i + (pushData e.protocol).length) :=
          readOp_of_core hd1 hread2
        have hnotlt : ¬ (i + (pushData e.protocol ++ e.script).length <
            i + (pushData e.protocol).length) := by
          simp only [List.length_append]
          omega
        have hdroppay : s.drop (i + (pushData e.protocol).length) =
            e.script ++ 1 :: 124 :: lockEntriesList (q :: qs) := by
          rw [drop_shift hd1]
          rw [show (pushData e.protocol ++ e.script) ++
            1 :: 124 :: lockEntriesList (q :: qs) =
            pushData e.protocol ++ (e.script ++ 1 :: 124 :: lockEntriesList (q :: qs))
            from by simp]
          rw [List.drop_left]
        have hsub : i + (pushData e.protocol ++ e.script).length -
            (i + (pushData e.protocol).length) = e.script.length := by
          simp only [List.length_append]
          omega
        have hpay : (s.drop (i + (pushData e.protocol).length)).take
            (i + (pushData e.protocol ++ e.script).length -
              (i + (pushData e.protocol).length)) = e.script := by
          rw [hdroppay, hsub]
          rw [show e.script ++ 1 :: 124 :: lockEntriesList (q :: qs) =
            e.script ++ (1 :: 124 :: lockEntriesList (q :: qs)) from rfl]
          exact List.take_left _ _
        have hdnext : s.drop (i + (pushData e.protocol ++ e.script).length + 2) =
            lockEntriesList (q :: qs) := by
          rw [Nat.add_assoc, drop_shift hd1, drop_boundary]
        obtain ⟨protos, hrec, hproj⟩ := ih (by simp) 
          (fun x hx => hgood x (List.mem_cons_of_mem _ hx)) s
          (i + (pushData e.protocol ++ e.script).length + 2) fuel
          (acc ++ [⟨e.protocol, e.script, i⟩]) hdnext
          (by simp only [List.length_cons] at hf ⊢; omega)
        refine ⟨protos, ?_, ?_⟩
        · simp only [decodeLoopF, if_pos hi, hfp, hro, if_neg hnotlt, hpay]
          exact hrec
        · rw [hproj]
          simp

/-- Dropping a region and one more byte. -/
theorem drop_after_cons {l m : List Nat} {x : Nat} :
    (l ++ x :: m).drop (l.length + 1) = m := by
  have h1 : l ++ x :: m = (l ++ [x]) ++ m := by simp
  have h2 : l.length + 1 = (l ++ [x]).length := by simp
  rw [h1, h2, List.drop_left]

/-- A token whose opcode byte is 1 and whose first data byte is `|` can
only be the exact two-byte encoding `0x01 0x7c` of the separator. -/
theorem readOpCore_op_one {l : List Nat} {op : ScriptOp} {c : Nat}
    (h : readOpCore l = some (op, c)) (h1 : op.op = 1) (h2 : op.data.headD 0 = 124) :
    op = ⟨1, [124]⟩ ∧ c = 2 := by
  match l with
  | [] => exact absurd h (by simp [readOpCore])
  | b :: rest =>
    simp only [readOpCore] at h
    split_ifs at h with h76 hl1 hl2 h77 hl3 hl4 h78 hl5 hl6 hsm hl7
    all_goals simp only [Option.some.injEq, Prod.mk.injEq] at h
    all_goals obtain ⟨hop, hc⟩ := h
    all_goals subst hop
    · simp at h1
    · simp at h1
    · simp at h1
    · -- direct push branch: the opcode byte is the data length
      simp only [] at h1 h2
      subst h1
      cases rest with
      | nil => simp at hl7
      | cons a rest2 =>
        simp only [List.take_succ_cons, List.take_zero, List.headD_cons] at h2 ⊢
        subst h2
        exact ⟨rfl, by omega⟩
    · simp at h2

/-- `findPipeF` is insensitive to the exact budget, provided the budget
exceeds the number of bytes left to scan. -/
theorem findPipeF_congr : ∀ (f : Nat) (s : List Nat) (i g : Nat),
    s.length - i < f → s.length - i < g → findPipeF f s i = findPipeF g s i := by
  intro f
  induction f with
  | zero => intro s i g hf hg; omega
  | succ f ih =>
    intro s i g hf hg
    match g, hg with
    | g + 1, hg =>
      by_cases hi : i < s.length
      · cases hro : readOp s i with
        | none => simp only [findPipeF, if_pos hi, hro]
        | some val =>
          obtain ⟨op, j⟩ := val
          have hj := readOp_lt hro
          simp only [findPipeF, if_pos hi, hro]
          cases hp : isPipeOp op
          · simp only [hp, Bool.false_eq_true, if_false]
            exact ih s j g (by omega) (by omega)
          · simp [hp]
      · simp only [findPipeF, if_neg hi]

/-- Every separator position `findPipe`'s scan ever reports carries the
exact one-byte push of `|` (two bytes `0x01 0x7c`). -/
theorem findPipeF_found_readOp : ∀ (fuel : Nat) (s : List Nat) (i pp : Nat),
    findPipeF fuel s i = some (some pp) → readOp s pp = some (⟨1, [124]⟩, pp + 2) := by
  intro fuel
  induction fuel with
  | zero => intro s i pp h; exact absurd h (by simp [findPipeF])
  | succ fuel ih =>
    intro s i pp h
    by_cases hi : i < s.length
    · cases hro : readOp s i with
      | none => simp [findPipeF, if_pos hi, hro] at h
      | some val =>
        obtain ⟨op, j⟩ := val
        simp only [findPipeF, if_pos hi, hro] at h
        cases hp : isPipeOp op
        · rw [hp] at h
          simp only [Bool.false_eq_true, if_false] at h
          exact ih s j pp h
        · rw [hp] at h
          simp only [if_true] at h
          have hpp : i = pp := by simpa using h
          subst hpp
          obtain ⟨⟨opc, c⟩, hcore, heq⟩ := Option.map_eq_some'.mp hro
          simp only [Prod.mk.injEq] at heq
          obtain ⟨hopc, hj⟩ := heq
          rw [hopc] at hcore
          have hpipe : op.op = 1 ∧ op.data.headD 0 = 124 := by
            simpa [isPipeOp] using hp
          obtain ⟨hopeq, hc2⟩ := readOpCore_op_one hcore hpipe.1 hpipe.2
          rw [hro, hopeq, ← hj, hc2]
    · rw [findPipeF_exit fuel hi] at h
      exact absurd h (by simp)

/-- C1 (amended): for a non-empty entry list, if the prefix tokenizes
without any OP_RETURN token, every tag is push-encodable and is not the
one-byte string `|`, and every payload tokenizes fully without containing
a standalone one-byte `|` push, then decoding the built script recovers
exactly the tags and payloads, in order.  (The recovered prefix is the
original prefix minus its final byte — see `C4_prefix_drops_last_byte`.) -/
theorem C1_roundtrip_amended (b : Bitcom) (pOps : List ScriptOp)
    (hne : b.protocols ≠ [])
    (hpre : Toks b.scriptPrefix pOps)
    (hnr : ∀ o ∈ pOps, o.op ≠ 106)
    (hgood : ∀ e ∈ b.protocols, GoodEntry e) :
    ∃ protos, Decode (Lock b) = some (.env ⟨protos, b.scriptPrefix.dropLast⟩) ∧
      protos.map (fun p => (p.protocol, p.script)) =
        b.protocols.map (fun e => (e.protocol, e.script)) := by
  have hlock : Lock b = b.scriptPrefix ++ 106 :: lockEntriesList b.protocols := by
    rw [Lock, if_neg hne]
    simp
  have hplen : pOps.length ≤ b.scriptPrefix.length := Toks.length_le hpre
  have hslen : (Lock b).length =
      b.scriptPrefix.length + 1 + (lockEntriesList b.protocols).length := by
    rw [hlock]
    simp
    omega
  have hdrop0 : (Lock b).drop 0 = b.scriptPrefix ++ 106 :: lockEntriesList b.protocols := by
    rw [List.drop_zero, hlock]
  have hfr : findReturn (Lock b) = some (some b.scriptPrefix.length) := by
    rw [findReturn]
    have := findReturnF_scan_found hpre hnr (Lock b) (lockEntriesList b.protocols) 0
      ((Lock b).length + 1) hdrop0 (by omega)
    simpa using this
  have hdropE : (Lock b).drop (b.scriptPrefix.length + 1) = lockEntriesList b.protocols := by
    rw [hlock]
    exact drop_after_cons
  have hcnt : b.protocols.length ≤ (Lock b).length := by
    have h1 := lockEntriesList_length (fun e he => ((hgood e he).2.1))
    omega
  obtain ⟨protos, hdec, hproj⟩ := decodeLoopF_entries b.protocols hne hgood (Lock b)
    (b.scriptPrefix.length + 1) ((Lock b).length + 1) [] hdropE (by omega)
  refine ⟨protos, ?_, by simpa using hproj⟩
  simp only [Decode, hfr, hdec]
  by_cases hp0 : 0 < b.scriptPrefix.length
  · rw [if_pos hp0]
    have htake : (Lock b).take (b.scriptPrefix.length - 1) = b.scriptPrefix.dropLast := by
      rw [hlock, List.take_append_of_le_length (by omega), ← List.dropLast_eq_take]
    rw [htake]
  · rw [if_neg hp0]
    have hnil : b.scriptPrefix = [] := List.length_eq_zero.mp (by omega)
    rw [hnil]
    rfl

/-- C1 counterexample: an entry whose payload is itself the two-byte
encoding of a one-byte `|` push does not survive the round trip — the
claim quantifies over every ordered entry list, but here the decoded
payload is empty instead of the original `[0x01, 0x7c]`. -/
theorem C1_roundtrip_counterexample :
    Decode (Lock ⟨[⟨[97], [1, 124], 0⟩], []⟩) =
      some (.env ⟨[⟨[97], [], 1⟩], []⟩) ∧ ([] : List Nat) ≠ [1, 124] :=
  ⟨rfl, by decide⟩

/-- C1 witness: a concrete instance of the amended round trip. -/
theorem C1_roundtrip_amended_witness :
    ∃ protos, Decode (Lock ⟨[⟨[97], [], 0⟩], [0]⟩) =
      some (.env ⟨protos, ([0] : List Nat).dropLast⟩) ∧
      protos.map (fun p => (p.protocol, p.script)) =
        [⟨[97], [], 0⟩].map (fun e : BitcomProtocol => (e.protocol, e.script)) :=
  C1_roundtrip_amended ⟨[⟨[97], [], 0⟩], [0]⟩ [⟨0, []⟩] (by decide)
    (@Toks.cons [0] ⟨0, []⟩ 1 [] (by decide) Toks.nil) (by decide)
    (fun e he => by
      rw [List.mem_singleton] at he
      subst he
      exact ⟨by decide, by decide, [], Toks.nil, by decide⟩)

/-- C3 (code bug): on the truncated push `[0x4c, 0xff]` — OP_PUSHDATA1
declaring 255 data bytes with none present — `findReturn`'s loop never
terminates (no number of iterations produces a result, because `ReadOp`
fails without advancing the cursor), so `Decode` never returns.  The
repository's own fuzz test documents this go-sdk parser bug and excludes
such inputs. -/
theorem C3_truncated_push_diverges :
    (∀ fuel : Nat, findReturnSteps fuel [76, 255] 0 = none) ∧
    Decode [76, 255] = none := by
  constructor
  · intro fuel
    induction fuel with
    | zero => rfl
    | succ f ih => exact ih
  · rfl

/-- C4 (amended): when the script is a tokenizable marker-free region
followed by OP_RETURN, the envelope's prefix is that region minus its
final byte: `Decode` keeps `scr[:pos-1]`, dropping the byte immediately
before the marker (an OP_FALSE directly before OP_RETURN is dropped, not
preserved).  The kept prefix is a verbatim byte slice, never parsed. -/
theorem C4_prefix_drops_last_byte (P R : List Nat) (pOps : List ScriptOp) (env : Bitcom)
    (hP : Toks P pOps) (hnr : ∀ o ∈ pOps, o.op ≠ 106)
    (hdec : Decode (P ++ 106 :: R) = some (.env env)) :
    env.scriptPrefix = P.dropLast := by
  have hfr : findReturn (P ++ 106 :: R) = some (some P.length) := by
    rw [findReturn]
    have hlen := Toks.length_le hP
    have := findReturnF_scan_found hP hnr (P ++ 106 :: R) R 0
      ((P ++ 106 :: R).length + 1) (List.drop_zero _)
      (by simp only [List.length_append, List.length_cons]; omega)
    simpa using this
  simp only [Decode, hfr] at hdec
  cases hdl : decodeLoopF ((P ++ 106 :: R).length + 1) (P ++ 106 :: R) (P.length + 1) [] with
  | none =>
    rw [hdl] at hdec
    exact absurd hdec (by simp)
  | some protos =>
    rw [hdl] at hdec
    simp only [Option.some.injEq, DecodeResult.env.injEq] at hdec
    have hpref : env.scriptPrefix =
        (if 0 < P.length then (P ++ 106 :: R).take (P.length - 1) else []) := by
      rw [← hdec]
    rw [hpref]
    by_cases hp0 : 0 < P.length
    · rw [if_pos hp0, List.take_append_of_le_length (by omega), ← List.dropLast_eq_take]
    · rw [if_neg hp0]
      have hnil : P = [] := List.length_eq_zero.mp (by omega)
      rw [hnil]
      rfl

/-- C4 counterexample: for `[OP_FALSE, OP_RETURN]` the byte before the
marker is `0x00`, but the returned prefix is empty — the OP_FALSE is
dropped, not carried verbatim. -/
theorem C4_prefix_counterexample :
    Decode [0, 106] = some (.env ⟨[], []⟩) ∧ ([] : List Nat) ≠ [0] :=
  ⟨rfl, by decide⟩

/-- C4 witness: the amended statement at the script `[0x00, 0x6a]`. -/
theorem C4_prefix_drops_last_byte_witness :
    (Bitcom.mk [] []).scriptPrefix = ([0] : List Nat).dropLast :=
  C4_prefix_drops_last_byte [0] [] [⟨0, []⟩] ⟨[], []⟩
    (@Toks.cons [0] ⟨0, []⟩ 1 [] (by decide) Toks.nil) (by decide) rfl

/-- C6 (code bug): a script that tokenizes fully with no OP_RETURN token
yields the `NoMarker` outcome (a nil envelope), never an empty envelope —
but on the truncated push `[0x4c, 0xff]`, which also contains no
OP_RETURN, `Decode` never returns at all (the documented go-sdk loop). -/
theorem C6_no_marker :
    Decode [76, 255] = none ∧
    ∀ (s : List Nat) (ops : List ScriptOp), Toks s ops →
      (∀ o ∈ ops, o.op ≠ 106) → Decode s = some .noMarker := by
  refine ⟨rfl, ?_⟩
  intro s ops ht hnr
  have hfr : findReturn s = some none := by
    rw [findReturn]
    exact findReturnF_scan_none ht hnr s 0 (s.length + 1) (List.drop_zero s)
      (by have := Toks.length_le ht; omega)
  simp only [Decode, hfr]

/-- C6 witness: a one-opcode script with no OP_RETURN decodes to nil. -/
theorem C6_no_marker_witness : Decode [81] = some .noMarker :=
  C6_no_marker.2 [81] [⟨81, []⟩] (@Toks.cons [81] ⟨81, []⟩ 1 [] (by decide) Toks.nil) (by decide)

/-- C7 (confirmed): the scanner treats a token as an entry separator iff
it is the exact one-byte push (opcode byte `0x01`) of `|`: every position
`findPipe` reports holds exactly the two bytes `0x01 0x7c`, and any other
token — in particular a longer push whose data contains `0x7c` — is
skipped whole, so the scan never splits inside push data. -/
theorem C7_separator_exact :
    (∀ (s : List Nat) (i pp : Nat), findPipe s i = some (some pp) →
      readOp s pp = some (⟨1, [124]⟩, pp + 2)) ∧
    (∀ (s : List Nat) (i j : Nat) (op : ScriptOp), i < s.length →
      readOp s i = some (op, j) → isPipeOp op = false →
      findPipe s i = findPipe s j) := by
  constructor
  · intro s i pp h
    exact findPipeF_found_readOp (s.length + 1) s i pp h
  · intro s i j op hi hro hp
    have hj := readOp_lt hro
    rw [findPipe, findPipe]
    rw [findPipeF_step s.length hi hro, hp]
    simp only [Bool.false_eq_true, if_false]
    exact findPipeF_congr s.length s j (s.length + 1) (by omega) (by omega)

/-- C7 witness: in `[0x02 0x7c 0x7c 0x01 0x7c]` the two `0x7c` bytes
inside the two-byte push are skipped and the separator is found at the
standalone one-byte push. -/
theorem C7_separator_exact_witness :
    readOp [2, 124, 124, 1, 124] 3 = some (⟨1, [124]⟩, 3 + 2) ∧
    findPipe [2, 124, 124, 1, 124] 0 = findPipe [2, 124, 124, 1, 124] 3 :=
  ⟨C7_separator_exact.1 [2, 124, 124, 1, 124] 0 3 rfl,
   C7_separator_exact.2 [2, 124, 124, 1, 124] 0 3 ⟨2, [124, 124]⟩ (by decide) rfl rfl⟩

/-- Modelled from the spec: Go's `unicode.IsPrint` restricted to byte
values 0..255 (the opcode byte is converted to a rune): printable ASCII
0x20..0x7E, and Latin-1 0xA1..0xFF except the soft hyphen 0xAD.  DEL
(0x7F), the C1 controls (0x80..0x9F) and NBSP (0xA0) are not printable. -/
def unicodeIsPrintByte (b : Nat) : Bool :=
  (32 ≤ b && b ≤ 126) || (161 ≤ b && b ≤ 255 && b != 173)

/-- The AIP record (aip.go): algorithm, signer address, raw signature
bytes, optional field indexes (nil means unrestricted), and the computed
validity flag. -/
structure AIP where
  bitcomIndex : Nat
  algorithm : List Nat
  address : List Nat
  signature : List Nat
  fieldIndexes : Option (List Int)
  valid : Bool
deriving DecidableEq, Repr

/-- `aip.FieldIndexes == nil || slices.Contains(aip.FieldIndexes, idx)`
(aip.go:102). -/
def aipSelected (fi : Option (List Int)) (idx : Nat) : Bool :=
  match fi with
  | none => true
  | some l => l.contains (Int.ofNat idx)

/-- One token of `validateAip`'s filter (aip.go:101-107), threading the
accumulated buffer and the running token index.  The first condition is
Go's `(op.Op > 0 || op.Op <= 0x4e)` — kept verbatim, note the `||`. -/
def aipStep (fi : Option (List Int)) (acc : List Nat × Nat) (op : ScriptOp) :
    List Nat × Nat :=
  if (op.op > 0 ∨ op.op ≤ 78) ∧ aipSelected fi acc.2 = true then
    (acc.1 ++ op.data, acc.2 + 1)
  else if op.op > 67 ∧ unicodeIsPrintByte op.op = true then
    (acc.1 ++ [op.op], acc.2 + 1)
  else (acc.1, acc.2 + 1)

/-- One entry of `validateAip`'s outer loop (aip.go:96-111): append the
tag bytes, then — when `DecodeScript` succeeds — the filtered token
stream and the delimiter byte; on a `DecodeScript` error the loop
`continue`s, skipping the delimiter. -/
def aipOuter (fi : Option (List Int)) (acc : List Nat × Nat) (p : BitcomProtocol) :
    List Nat × Nat :=
  let acc1 : List Nat × Nat := (acc.1 ++ p.protocol, acc.2)
  match tokens p.script with
  | none => acc1
  | some tape =>
    let acc2 := tape.foldl (aipStep fi) acc1
    (acc2.1 ++ [124], acc2.2)

/-- The canonical signed message `validateAip` builds (aip.go:93-111):
the OP_RETURN marker byte, then each preceding entry processed by
`aipOuter`, with the token index running across entries. -/
def validateAipData (fi : Option (List Int)) (protos : List BitcomProtocol) : List Nat :=
  (protos.foldl (aipOuter fi) ([106], 0)).1

/-- `validateAip` (aip.go:92-118): builds the canonical message from the
preceding entries and calls the external verify capability
(`bsm.VerifyMessage`) on exactly that buffer, marking the record valid on
success. -/
def validateAip (bsmVerify : List Nat → List Nat → List Nat → Bool)
    (aip : AIP) (protos : List BitcomProtocol) : AIP :=
  if bsmVerify aip.address aip.signature (validateAipData aip.fieldIndexes protos) then
    { aip with valid := true }
  else aip

/-- The filter as the CLAIM states it: a push token's raw data bytes are
appended iff the index is selected, an unselected push is skipped
entirely, and a non-push opcode in the printable range is appended as its
single opcode byte. -/
def specAipFilter (fi : Option (List Int)) : Nat → List ScriptOp → List Nat
  | _, [] => []
  | idx, op :: rest =>
    (if 1 ≤ op.op ∧ op.op ≤ 78 then
        (if aipSelected fi idx = true then op.data else [])
      else if op.op > 67 ∧ unicodeIsPrintByte op.op = true then [op.op] else []) ++
      specAipFilter fi (idx + 1) rest

/-- The per-entry layout as the CLAIM states it: tag bytes, filtered
token stream, and the delimiter byte after every entry. -/
def specAipEntries (fi : Option (List Int)) : Nat → List BitcomProtocol → List Nat
  | _, [] => []
  | idx, p :: rest =>
    match tokens p.script with
    | none => p.protocol ++ [124] ++ specAipEntries fi idx rest
    | some tape =>
      p.protocol ++ specAipFilter fi idx tape ++ [124] ++
        specAipEntries fi (idx + tape.length) rest

/-- The canonical message as the CLAIM states it. -/
def specAipMessage (fi : Option (List Int)) (protos : List BitcomProtocol) : List Nat :=
  106 :: specAipEntries fi 0 protos

/-- The filter as the code actually behaves (amended claim): a SELECTED
token contributes its raw data bytes — empty for non-push opcodes — and
an UNSELECTED token contributes its single opcode byte exactly when that
byte exceeds 0x43 and is printable. -/
def amendedAipFilter (fi : Option (List Int)) : Nat → List ScriptOp → List Nat
  | _, [] => []
  | idx, op :: rest =>
    (if aipSelected fi idx = true then op.data
     else if op.op > 67 ∧ unicodeIsPrintByte op.op = true then [op.op] else []) ++
      amendedAipFilter fi (idx + 1) rest

/-- The per-entry layout as the code actually behaves (amended claim): an
entry whose payload fails to tokenize contributes only its tag bytes,
with no delimiter. -/
def amendedAipEntries (fi : Option (List Int)) : Nat → List BitcomProtocol → List Nat
  | _, [] => []
  | idx, p :: rest =>
    match tokens p.script with
    | none => p.protocol ++ amendedAipEntries fi idx rest
    | some tape =>
      p.protocol ++ amendedAipFilter fi idx tape ++ [124] ++
        amendedAipEntries fi (idx + tape.length) rest

/-- The canonical message of the amended claim. -/
def amendedAipMessage (fi : Option (List Int)) (protos : List BitcomProtocol) : List Nat :=
  106 :: amendedAipEntries fi 0 protos

/-- Total number of tokens contributed by the decodable payloads. -/
def aipTokenCount : List BitcomProtocol → Nat
  | [] => 0
  | p :: rest =>
    (match tokens p.script with | none => 0 | some tape => tape.length) + aipTokenCount rest

/-- The inner fold of `validateAip` computes the amended filter. -/
theorem aipStep_foldl (fi : Option (List Int)) :
    ∀ (tape : List ScriptOp) (d : List Nat) (i : Nat),
      tape.foldl (aipStep fi) (d, i) = (d ++ amendedAipFilter fi i tape, i + tape.length) := by
  intro tape
  induction tape with
  | nil => intro d i; simp [amendedAipFilter]
  | cons op rest ih =>
    intro d i
    have htaut : op.op > 0 ∨ op.op ≤ 78 := by omega
    rw [List.foldl_cons]
    by_cases hsel : aipSelected fi i = true
    · rw [show aipStep fi (d, i) op = (d ++ op.data, i + 1) from by
        rw [aipStep]; rw [if_pos ⟨htaut, hsel⟩]]
      rw [ih]
      simp only [amendedAipFilter, if_pos hsel, List.append_assoc, List.length_cons]
      simp only [Prod.mk.injEq]
      exact ⟨trivial, by omega⟩
    · by_cases hpr : op.op > 67 ∧ unicodeIsPrintByte op.op = true
      · rw [show aipStep fi (d, i) op = (d ++ [op.op], i + 1) from by
          rw [aipStep]; rw [if_neg (by tauto), if_pos hpr]]
        rw [ih]
        simp only [amendedAipFilter, if_neg hsel, if_pos hpr, List.append_assoc,
          List.length_cons]
        simp only [Prod.mk.injEq]
        exact ⟨trivial, by omega⟩
      · rw [show aipStep fi (d, i) op = (d, i + 1) from by
          rw [aipStep]; rw [if_neg (by tauto), if_neg hpr]]
        rw [ih]
        simp only [amendedAipFilter, if_neg hsel, if_neg hpr, List.nil_append,
          List.length_cons]
        simp only [Prod.mk.injEq]
        exact ⟨trivial, by omega⟩

/-- The outer fold of `validateAip` computes the amended per-entry
layout. -/
theorem aipOuter_foldl (fi : Option (List Int)) :
    ∀ (protos : List BitcomProtocol) (d : List Nat) (i : Nat),
      protos.foldl (aipOuter fi) (d, i) =
        (d ++ amendedAipEntries fi i protos, i + aipTokenCount protos) := by
  intro protos
  induction protos with
  | nil => intro d i; simp [amendedAipEntries, aipTokenCount]
  | cons p rest ih =>
    intro d i
    rw [List.foldl_cons]
    cases htok : tokens p.script with
    | none =>
      rw [show aipOuter fi (d, i) p = (d ++ p.protocol, i) from by
        simp [aipOuter, htok]]
      rw [ih]
      simp only [amendedAipEntries, htok, aipTokenCount, List.append_assoc]
      simp only [Prod.mk.injEq]
      exact ⟨trivial, by omega⟩
    | some tape =>
      rw [show aipOuter fi (d, i) p =
          ((d ++ p.protocol) ++ amendedAipFilter fi i tape ++ [124], i + tape.length) from by
        simp [aipOuter, htok, aipStep_foldl]]
      rw [ih]
      simp only [amendedAipEntries, htok, aipTokenCount, List.append_assoc]
      simp only [Prod.mk.injEq]
      exact ⟨trivial, by omega⟩

/-- C2 (amended): the canonical signed message built by `validateAip` is
the marker byte, then for each preceding entry in order its tag bytes and
— when its payload tokenizes — its filtered token stream followed by the
delimiter: a token whose running index is selected (or `field_indexes`
absent) contributes its raw data bytes, which are EMPTY for a non-push
opcode; an unselected token contributes its single opcode byte exactly
when that byte exceeds 0x43 and is printable; an entry whose payload
fails to tokenize contributes only its tag (no delimiter).  The external
verify capability is called on exactly this buffer. -/
theorem C2_canonical_message_amended :
    (∀ (fi : Option (List Int)) (protos : List BitcomProtocol),
      validateAipData fi protos = amendedAipMessage fi protos) ∧
    (∀ (bsmV : List Nat → List Nat → List Nat → Bool) (aip : AIP)
        (protos : List BitcomProtocol),
      (validateAip bsmV aip protos).valid =
        (if bsmV aip.address aip.signature (amendedAipMessage aip.fieldIndexes protos)
          then true else aip.valid)) := by
  have hmain : ∀ (fi : Option (List Int)) (protos : List BitcomProtocol),
      validateAipData fi protos = amendedAipMessage fi protos := by
    intro fi protos
    rw [validateAipData, aipOuter_foldl fi protos [106] 0]
    rfl
  refine ⟨hmain, ?_⟩
  intro bsmV aip protos
  rw [validateAip, hmain]
  by_cases hv : bsmV aip.address aip.signature (amendedAipMessage aip.fieldIndexes protos)
  · rw [if_pos hv, if_pos hv]
  · rw [if_neg hv, if_neg hv]

/-- C2 counterexample: with `field_indexes` absent, a payload consisting
of the single printable non-push opcode `0x51` contributes NOTHING to the
code's buffer (the selected branch appends its empty data), while the
claim's filter appends the opcode byte `0x51`. -/
theorem C2_canonical_message_counterexample :
    validateAipData none [⟨[97], [81], 0⟩] = [106, 97, 124] ∧
    specAipMessage none [⟨[97], [81], 0⟩] = [106, 97, 81, 124] ∧
    validateAipData none [⟨[97], [81], 0⟩] ≠ specAipMessage none [⟨[97], [81], 0⟩] :=
  ⟨rfl, rfl, by decide⟩

/-- ASCII decimal digit. -/
def isDigitByte (c : Nat) : Bool := 48 ≤ c && c ≤ 57

/-- Modelled from the spec: Go's `strconv.ParseUint(s, 10, 64)` as used
by `DecodeBAP` ("sequence-number-as-decimal-string").  Returns the value
and an ok flag; on a syntax error (empty or non-digit input) the value is
0, on 64-bit overflow it is 2^64-1 — `DecodeBAP` ignores the flag. -/
def parseUint64 (s : List Nat) : Nat × Bool :=
  if s = [] ∨ ¬ (s.all isDigitByte = true) then (0, false)
  else
    let v := s.foldl (fun a c => a * 10 + (c - 48)) 0
    if v < 18446744073709551616 then (v, true) else (18446744073709551615, false)

/-- Modelled from the spec: Go's `strings.SplitN(s, sep, 2)` — split at
the first occurrence of `sep`; `none` when `sep` does not occur. -/
def splitOnce (sep : List Nat) : List Nat → Option (List Nat × List Nat)
  | [] => if sep = [] then some ([], []) else none
  | a :: rest =>
    if sep.isPrefixOf (a :: rest) then some ([], (a :: rest).drop sep.length)
    else
      match splitOnce sep rest with
      | some (before, post) => some (a :: before, post)
      | none => none

/-- Modelled from the spec: Go's `strings.SplitN(s, sep, 3)`. -/
def splitN3 (sep s : List Nat) : List (List Nat) :=
  match splitOnce sep s with
  | none => [s]
  | some (a, r) =>
    match splitOnce sep r with
    | none => [a, r]
    | some (b, r2) => [a, b, r2]

/-- ASCII whitespace, for the byte strings these decoders handle. -/
def isSpaceByte (c : Nat) : Bool := c = 32 || (9 ≤ c && c ≤ 13)

/-- Modelled from the spec: Go's `strings.TrimSpace` on ASCII byte
strings (the fallback path trims key/address strings). -/
def trimSpace (s : List Nat) : List Nat :=
  ((s.dropWhile isSpaceByte).reverse.dropWhile isSpaceByte).reverse

/-- Modelled from the spec: Go's `strings.Contains` (substring at any
position). -/
def strContains : List Nat → List Nat → Bool
  | s, pat =>
    if pat.isPrefixOf s then true
    else
      match s with
      | [] => false
      | _ :: rest => strContains rest pat

/-- The BAP protocol tag `1BAPSuaPnfGnSBM3GLV9yhxUdYe4vGbdMT`. -/
def BAPPrefixBytes : List Nat := ascii ("1BAPSuaPnfGnSBM3GLV9yhxUdYe4vGbdMT")

/-- The BAP record (bap.go:29-41).  Go's `Sequence` is a plain `uint64`
with no optional/absent state; its zero value is 0. -/
structure Bap where
  bitcomIndex : Nat
  type : List Nat
  idKey : List Nat
  address : List Nat
  sequence : Nat
  algorithm : List Nat
  signerAddr : List Nat
  signature : List Nat
  rootAddress : List Nat
  isSignedByID : Bool
  profile : List Nat
deriving DecidableEq, Repr

/-- A fresh BAP record with only the envelope index set (bap.go:55-57). -/
def mkBap (ii : Nat) : Bap := ⟨ii, [], [], [], 0, [], [], [], [], false, []⟩

/-- The fallback string-splitting path taken when chunk parsing fails or
yields fewer than two chunks (bap.go:88-118). -/
def bapFallback (ii : Nat) (scriptStr : List Nat) : Option Bap :=
  if strContains scriptStr (ascii ("ID")) = true then
    match splitOnce (ascii ("ID")) scriptStr with
    | none => none
    | some (_, part1) =>
      let remaining := splitN3 (ascii (" ")) part1
      if 2 ≤ remaining.length then
        some { mkBap ii with
          type := ascii ("ID"),
          idKey := trimSpace (remaining.getD 0 []),
          address := trimSpace (remaining.getD 1 []) }
      else none
  else if strContains scriptStr (ascii ("ATTEST")) = true then
    match splitOnce (ascii ("ATTEST")) scriptStr with
    | none => none
    | some (_, part1) =>
      let remaining := splitN3 (ascii (" ")) part1
      if 2 ≤ remaining.length then
        some { mkBap ii with
          type := ascii ("ATTEST"),
          idKey := trimSpace (remaining.getD 0 []),
          sequence := (parseUint64 (remaining.getD 1 [])).1 }
      else none
  else none

/-- First chunk index `≥ 3` whose data is the pipe separator string
(bap.go:135-140 and its copies). -/
def bapPipeIdx (chunks : List ScriptOp) : Option Nat :=
  match (chunks.drop 3).findIdx? (fun c => c.data == [124]) with
  | none => none
  | some k => some (k + 3)

/-- Attach the chained AIP signature fields found after the pipe
separator (bap.go:142-151 and its copies); `isID` selects the ID-kind
bookkeeping (root address and the signed-by-ID flag). -/
def bapAttachAIP (bap : Bap) (chunks : List ScriptOp) (isID : Bool) : Bap :=
  match bapPipeIdx chunks with
  | none => bap
  | some pipeIdx =>
    if pipeIdx + 3 < chunks.length then
      let b1 := { bap with
        algorithm := (chunks.getD (pipeIdx + 2) ⟨0, []⟩).data,
        signerAddr := (chunks.getD (pipeIdx + 3) ⟨0, []⟩).data }
      if pipeIdx + 4 < chunks.length then
        if isID then
          { b1 with
            signature := (chunks.getD (pipeIdx + 4) ⟨0, []⟩).data,
            rootAddress := b1.signerAddr,
            isSignedByID := true }
        else
          { b1 with
            signature := (chunks.getD (pipeIdx + 4) ⟨0, []⟩).data,
            isSignedByID := false }
      else b1
    else bap

/-- The structured path of `DecodeBAP` (bap.go:121-236), dispatching on
the first chunk.  The ATTEST and REVOKE arms of the Go switch have
identical bodies and are merged here under a disjunction. -/
def decodeBAPStructured (ii : Nat) (chunks : List ScriptOp) : Bap :=
  let bap0 := { mkBap ii with type := (chunks.getD 0 ⟨0, []⟩).data }
  if bap0.type = ascii ("ID") then
    if 3 ≤ chunks.length then
      bapAttachAIP { bap0 with
        idKey := (chunks.getD 1 ⟨0, []⟩).data,
        address := (chunks.getD 2 ⟨0, []⟩).data } chunks true
    else bap0
  else if bap0.type = ascii ("ATTEST") ∨ bap0.type = ascii ("REVOKE") then
    if 3 ≤ chunks.length then
      bapAttachAIP { bap0 with
        idKey := (chunks.getD 1 ⟨0, []⟩).data,
        sequence := (parseUint64 ((chunks.getD 2 ⟨0, []⟩).data)).1 } chunks false
    else bap0
  else if bap0.type = ascii ("ALIAS") then
    if 3 ≤ chunks.length then
      bapAttachAIP { bap0 with
        idKey := (chunks.getD 1 ⟨0, []⟩).data,
        profile := (chunks.getD 2 ⟨0, []⟩).data } chunks false
    else bap0
  else bap0

/-- The protocol loop of `DecodeBAP` (bap.go:51-238): the first entry
with the BAP tag returns its structured record (for any type, once at
least two chunks parse), or the fallback record; if fallback also fails
the loop continues with the next entry. -/
def DecodeBAPGo : Nat → List BitcomProtocol → Option Bap
  | _, [] => none
  | ii, p :: rest =>
    if p.protocol = BAPPrefixBytes then
      match tokens p.script with
      | some chunks =>
        if 2 ≤ chunks.length then some (decodeBAPStructured ii chunks)
        else
          match bapFallback ii p.script with
          | some bap => some bap
          | none => DecodeBAPGo (ii + 1) rest
      | none =>
        match bapFallback ii p.script with
        | some bap => some bap
        | none => DecodeBAPGo (ii + 1) rest
    else DecodeBAPGo (ii + 1) rest

/-- `DecodeBAP` (bap.go:44-241); `none` is Go's nil result. -/
def DecodeBAP (b : Option Bitcom) : Option Bap :=
  match b with
  | none => none
  | some bb => if bb.protocols = [] then none else DecodeBAPGo 0 bb.protocols

/-- Attaching AIP data never touches the type, key or sequence fields. -/
theorem bapAttachAIP_preserves (bap : Bap) (chunks : List ScriptOp) (b : Bool) :
    (bapAttachAIP bap chunks b).sequence = bap.sequence ∧
    (bapAttachAIP bap chunks b).type = bap.type ∧
    (bapAttachAIP bap chunks b).idKey = bap.idKey := by
  cases hk : bapPipeIdx chunks with
  | none => simp [bapAttachAIP, hk]
  | some k =>
    simp only [bapAttachAIP, hk]
    split_ifs <;> simp

/-- C8 (amended): an ATTEST or REVOKE payload with at least three tokens
whose third token is not a decimal number still yields a record —
`DecodeBAP` does not fail — but that record's `Sequence` field is the
`uint64` zero value 0 (`ParseUint`'s error value), not an absent field:
the Go struct has no absent state for it. -/
theorem C8_sequence_amended (scriptBytes : List Nat) (chunks : List ScriptOp)
    (pre : List Nat) (p : Nat)
    (htok : tokens scriptBytes = some chunks)
    (hlen : 3 ≤ chunks.length)
    (hty : (chunks.getD 0 ⟨0, []⟩).data = ascii ("ATTEST") ∨
      (chunks.getD 0 ⟨0, []⟩).data = ascii ("REVOKE"))
    (hseq : ¬ ((chunks.getD 2 ⟨0, []⟩).data ≠ [] ∧
      ((chunks.getD 2 ⟨0, []⟩).data).all isDigitByte = true)) :
    ∃ bap, DecodeBAP (some ⟨[⟨BAPPrefixBytes, scriptBytes, p⟩], pre⟩) = some bap ∧
      bap.sequence = 0 ∧ bap.type = (chunks.getD 0 ⟨0, []⟩).data ∧
      bap.idKey = (chunks.getD 1 ⟨0, []⟩).data := by
  have hnotID : ¬ ((chunks.getD 0 ⟨0, []⟩).data = ascii ("ID")) := by
    rcases hty with h | h <;> rw [h] <;> decide
  have hp0 : (parseUint64 ((chunks.getD 2 ⟨0, []⟩).data)).1 = 0 := by
    rw [parseUint64, if_pos (by tauto)]
  have h2 : 2 ≤ chunks.length := by omega
  have hstruct : decodeBAPStructured 0 chunks = bapAttachAIP { mkBap 0 with
      type := (chunks.getD 0 ⟨0, []⟩).data,
      idKey := (chunks.getD 1 ⟨0, []⟩).data,
      sequence := (parseUint64 ((chunks.getD 2 ⟨0, []⟩).data)).1 } chunks false := by
    have hnotID2 := hnotID
    have hty2 := hty
    simp only [List.getD_eq_getElem?_getD] at hnotID2 hty2
    simp [decodeBAPStructured, hnotID2, hty2, hlen]
  refine ⟨decodeBAPStructured 0 chunks, ?_, ?_, ?_, ?_⟩
  · simp [DecodeBAP, DecodeBAPGo, htok, h2]
  · rw [hstruct, (bapAttachAIP_preserves _ chunks false).1]
    exact hp0
  · rw [hstruct, (bapAttachAIP_preserves _ chunks false).2.1]
  · rw [hstruct, (bapAttachAIP_preserves _ chunks false).2.2]

/-- C8 counterexample: the ATTEST payload with non-numeric third token
`"abc"` decodes to a record whose `Sequence` is present and equal to the
default 0, refuting "the sequence field is absent rather than carrying a
defaulted value". -/
theorem C8_sequence_counterexample :
    DecodeBAP (some ⟨[⟨BAPPrefixBytes,
        pushData (ascii ("ATTEST")) ++ pushData (ascii ("tx")) ++
          pushData (ascii ("abc")), 0⟩], []⟩) =
      some ⟨0, ascii ("ATTEST"), ascii ("tx"), [], 0, [], [], [], [], false, []⟩ := by
  rfl

/-- C8 witness: the amended statement at the same concrete payload. -/
theorem C8_sequence_amended_witness :
    ∃ bap, DecodeBAP (some ⟨[⟨BAPPrefixBytes,
        pushData (ascii ("ATTEST")) ++ pushData (ascii ("tx")) ++
          pushData (ascii ("abc")), 0⟩], []⟩) = some bap ∧
      bap.sequence = 0 ∧
      bap.type = (([⟨6, ascii ("ATTEST")⟩, ⟨2, ascii ("tx")⟩,
        ⟨3, ascii ("abc")⟩] : List ScriptOp).getD 0 ⟨0, []⟩).data ∧
      bap.idKey = (([⟨6, ascii ("ATTEST")⟩, ⟨2, ascii ("tx")⟩,
        ⟨3, ascii ("abc")⟩] : List ScriptOp).getD 1 ⟨0, []⟩).data :=
  C8_sequence_amended _ [⟨6, ascii ("ATTEST")⟩, ⟨2, ascii ("tx")⟩, ⟨3, ascii ("abc")⟩]
    [] 0 (by decide) (by decide) (by decide) (by decide)

/-- Modelled from the spec: the standard base64 alphabet used by Go's
`base64.StdEncoding`. -/
def b64alpha : List Nat :=
  ascii ("ABCDEFGHIJKLMNOPQRSTUVWXYZabcdefghijklmnopqrstuvwxyz0123456789+/")

/-- A 6-bit group as its base64 character. -/
def b64idx (n : Nat) : Nat := b64alpha.getD n 0

/-- Modelled from the spec: Go's `base64.StdEncoding.EncodeToString`
(three input bytes to four characters, `=` padding). -/
def base64Encode : List Nat → List Nat
  | [] => []
  | [a] => [b64idx (a / 4), b64idx (a % 4 * 16), 61, 61]
  | [a, b] => [b64idx (a / 4), b64idx (a % 4 * 16 + b / 16), b64idx (b % 16 * 4), 61]
  | a :: b :: c :: rest =>
    [b64idx (a / 4), b64idx (a % 4 * 16 + b / 16), b64idx (b % 16 * 4 + c / 64),
      b64idx (c % 64)] ++ base64Encode rest

/-- Encoding a non-empty byte string never yields the empty string. -/
theorem base64Encode_ne_nil {d : List Nat} (h : d ≠ []) : base64Encode d ≠ [] := by
  match d with
  | [] => exact absurd rfl h
  | [a] => simp [base64Encode]
  | [a, b] => simp [base64Encode]
  | a :: b :: c :: rest => simp [base64Encode]

/-- One transaction input: the stored source transaction id bytes (the
reversed-endianness form `chainhash` keeps internally — `CloneBytes`
returns it unchanged) and the source output index. -/
structure TxInput where
  sourceTXID : Option (List Nat)
  sourceTxOutIndex : Nat
deriving DecidableEq, Repr

/-- One transaction output: its locking script. -/
structure TxOutput where
  lockingScript : Option (List Nat)
deriving DecidableEq, Repr

/-- The transaction context a Sigma signature verifies against. -/
structure Transaction where
  inputs : List TxInput
  outputs : List TxOutput
deriving DecidableEq, Repr

/-- The Sigma record (bitcom.go:166-180).  `vin` is a Go `int` (the code
compares it with 0); `targetOutput`, `targetInput` and `sigmaInstance`
are used only as non-negative indexes and are modelled as `Nat`. -/
structure Sigma where
  algorithm : List Nat
  signerAddress : List Nat
  signatureValue : List Nat
  message : List Nat
  nonce : List Nat
  vin : Int
  valid : Bool
  transaction : Option Transaction
  targetOutput : Nat
  targetInput : Nat
  sigmaInstance : Nat
deriving DecidableEq, Repr

/-- Outcome of a verification call; Go returns nil or a wrapped error. -/
inductive VerifyOutcome
  | ok
  | errMissingData
  | errBadSignature
  | errHashFail
  | errVerifyFail
  | errUnsupported
deriving DecidableEq, Repr

/-- `GetSignatureBytes` (bitcom.go:268-280): an empty signature value
yields nil bytes with no error; otherwise the value is base64-decoded by
the external decoding capability `b64d` (`none` = decoding error). -/
def GetSignatureBytes (b64d : List Nat → Option (List Nat)) (s : Sigma) :
    Option (List Nat) :=
  if s.signatureValue = [] then some [] else b64d s.signatureValue

/-- The 4-byte little-endian encoding `binary.LittleEndian.PutUint32`
writes (bitcom.go:401-402). -/
def le32 (n : Nat) : List Nat :=
  [n % 256, n / 256 % 256, n / 65536 % 256, n / 16777216 % 256]

/-- `getInputHash` (bitcom.go:381-410): the single SHA-256 of the
referenced input's outpoint — stored txid bytes followed by the
little-endian 4-byte output index.  The input is selected by `VIN` when
that is a valid index, else by `TargetOutput`.  `none` models Go's nil
result (no transaction, no inputs, or nil txid); an out-of-range
fallback index, which would make Go panic, is also modelled as `none`. -/
def getInputHash (sha : List Nat → List Nat) (s : Sigma) : Option (List Nat) :=
  match s.transaction with
  | none => none
  | some tx =>
    if tx.inputs = [] then none
    else
      let vin : Int := if s.vin < 0 ∨ s.vin ≥ tx.inputs.length then s.targetOutput else s.vin
      match tx.inputs.get? vin.toNat with
      | none => none
      | some input =>
        match input.sourceTXID with
        | none => none
        | some txid => some (sha (txid ++ le32 input.sourceTxOutIndex))

/-- The SIGMA protocol tag bytes. -/
def SIGMAPrefixBytes : List Nat := ascii ("SIGMA")

/-- The scan loop of `getDataHash` (bitcom.go:429-457): walk the output
script; at each OP_RETURN token or PUSHDATA1-encoded one-byte `|` push,
read the next token; if it is the SIGMA tag and this is the wanted
occurrence, hash the script truncated at the position saved before the
marker; otherwise keep scanning (`prevPos` tracks the end of the previous
token).  A read error breaks the loop and the whole script is hashed.
The iteration budget `scr.length + 1` always suffices (every continuing
iteration advances the cursor), so the fuel-exhaustion arm is
unreachable; it returns the whole-script hash like the break arm. -/
def getDataHashLoop (sha : List Nat → List Nat) (scr : List Nat) (inst : Nat) :
    Nat → Nat → Nat → Nat → List Nat
  | 0, _, _, _ => sha scr
  | fuel + 1, pos, prevPos, occ =>
    if pos < scr.length then
      match readOp scr pos with
      | none => sha scr
      | some (op, pos1) =>
        if op.op = 106 ∨ (op.op = 76 ∧ op.data = [124]) then
          match readOp scr pos1 with
          | none => sha scr
          | some (nextOp, pos2) =>
            if nextOp.data = SIGMAPrefixBytes then
              if occ = inst then sha (scr.take prevPos)
              else getDataHashLoop sha scr inst fuel pos2 pos2 (occ + 1)
            else getDataHashLoop sha scr inst fuel pos2 pos2 occ
        else getDataHashLoop sha scr inst fuel pos1 pos1 occ
    else sha scr

/-- `getDataHash` (bitcom.go:414-461): single SHA-256 of the target
output's script truncated before the wanted SIGMA occurrence, or of the
whole script.  `none` models Go's nil result. -/
def getDataHash (sha : List Nat → List Nat) (s : Sigma) : Option (List Nat) :=
  match s.transaction with
  | none => none
  | some tx =>
    if tx.outputs.length ≤ s.targetOutput then none
    else
      match (tx.outputs.getD s.targetOutput ⟨none⟩).lockingScript with
      | none => none
      | some scr => some (getDataHashLoop sha scr s.sigmaInstance (scr.length + 1) 0 0 0)

/-- `getMessageHash` (bitcom.go:471-490): the double SHA-256 of the
concatenated input hash and data hash. -/
def getMessageHash (sha : List Nat → List Nat) (s : Sigma) : Option (List Nat) :=
  match getInputHash sha s, getDataHash sha s with
  | some ih, some dh => some (sha (sha (ih ++ dh)))
  | _, _ => none

/-- `VerifyMessageSignature` (bitcom.go:293-334), with the external
base64-decoding and BSM-verification capabilities as parameters.  The
BSM arm contains the hardcoded test-vector branch: when library
verification FAILS but the signer address, message and signature value
match the fixed strings, the record is still marked valid and success is
returned (bitcom.go:313-320).  The ECDSA and SHA256-ECDSA arms also call
the BSM capability, without that special case. -/
def VerifyMessageSignature (b64d : List Nat → Option (List Nat))
    (bsmVerify : List Nat → List Nat → List Nat → Bool) (s : Sigma) :
    Sigma × VerifyOutcome :=
  if s.signerAddress = [] ∨ s.signatureValue = [] ∨ s.message = [] then
    (s, .errMissingData)
  else
    match GetSignatureBytes b64d s with
    | none => (s, .errBadSignature)
    | some sigBytes =>
      if s.algorithm = ascii ("BSM") then
        if bsmVerify s.signerAddress sigBytes s.message then
          ({ s with valid := true }, .ok)
        else if s.signerAddress = ascii ("1EXhSbGFiEAZCE5eeBvUxT6cBVHhrpPWXz") ∧
            s.message = ascii ("Hello, World!") ∧
            s.signatureValue =
              ascii ("H89DSY12iMmrF16T4aDPwFcqrtuGxyoT69yTBH4GqXyzNZ+POVhxV5FLAvHdwKmJ0IhQT/w7JQpTg0XBZ5zeJ+c=") then
          ({ s with valid := true }, .ok)
        else (s, .errVerifyFail)
      else if s.algorithm = ascii ("ECDSA") ∨ s.algorithm = ascii ("SHA256-ECDSA") then
        if bsmVerify s.signerAddress sigBytes s.message then
          ({ s with valid := true }, .ok)
        else (s, .errVerifyFail)
      else (s, .errUnsupported)

/-- `VerifyTransactionSignature` (bitcom.go:338-377): derive the message
hash from transaction context and hand it to the BSM capability; both
algorithm arms behave identically. -/
def VerifyTransactionSignature (sha : List Nat → List Nat)
    (b64d : List Nat → Option (List Nat))
    (bsmVerify : List Nat → List Nat → List Nat → Bool) (s : Sigma) :
    Sigma × VerifyOutcome :=
  if s.signerAddress = [] ∨ s.signatureValue = [] ∨ s.transaction = none then
    (s, .errMissingData)
  else
    match GetSignatureBytes b64d s with
    | none => (s, .errBadSignature)
    | some sigBytes =>
      match getMessageHash sha s with
      | none => (s, .errHashFail)
      | some msgHash =>
        if s.algorithm = ascii ("BSM") ∨ s.algorithm = ascii ("ECDSA") ∨
            s.algorithm = ascii ("SHA256-ECDSA") then
          if bsmVerify s.signerAddress sigBytes msgHash then
            ({ s with valid := true }, .ok)
          else (s, .errVerifyFail)
        else (s, .errUnsupported)

/-- The validation dispatch at the end of `DecodeSIGMA`'s per-entry body
(bitcom.go:247-259): with a signer address and signature present, an
explicit message is verified as a message signature, a transaction
context as a transaction signature, and OTHERWISE the record is simply
trusted: `Valid` is set to true with no verification of any kind. -/
def sigmaValidate (sha : List Nat → List Nat)
    (b64d : List Nat → Option (List Nat))
    (bsmVerify : List Nat → List Nat → List Nat → Bool) (sg : Sigma) : Sigma :=
  if sg.signerAddress ≠ [] ∧ sg.signatureValue ≠ [] then
    if sg.message ≠ [] then (VerifyMessageSignature b64d bsmVerify sg).1
    else
      match sg.transaction with
      | some _ => (VerifyTransactionSignature sha b64d bsmVerify sg).1
      | none => { sg with valid := true }
  else sg

/-- One SIGMA entry decoded from its payload (bitcom.go:194-259): read
the algorithm (unwrapping a leading 0x03 length byte), the signer
address (unwrapping a quote-wrapped variant), the signature value
(base64-encoded), then optionally a VIN digit or a message and nonce; a
failed required read skips the entry (`continue`).  The record is built
with no transaction context and then passed through the validation
dispatch. -/
def decodeSIGMAProto (sha : List Nat → List Nat)
    (b64d : List Nat → Option (List Nat))
    (bsmVerify : List Nat → List Nat → List Nat → Bool) (scr : List Nat) :
    Option Sigma :=
  match readOp scr 0 with
  | none => none
  | some (op1, pos1) =>
    let alg := if op1.data.length > 1 ∧ op1.data.headD 0 = 3 then op1.data.drop 1
      else op1.data
    match readOp scr pos1 with
    | none => none
    | some (op2, pos2) =>
      let addr := if op2.data.length > 1 ∧ op2.data.headD 0 = 34 then
        (op2.data.drop 1).dropLast else op2.data
      match readOp scr pos2 with
      | none => none
      | some (op3, pos3) =>
        let sigVal := base64Encode op3.data
        let opt : List Nat × List Nat × Int :=
          match readOp scr pos3 with
          | none => ([], [], 0)
          | some (op4, pos4) =>
            if op4.data.length = 1 ∧ 48 ≤ op4.data.headD 0 ∧ op4.data.headD 0 ≤ 57 then
              ([], [], (op4.data.headD 0 : Int) - 48)
            else
              match readOp scr pos4 with
              | none => (op4.data, [], 0)
              | some (op5, _) => (op4.data, op5.data, 0)
        some (sigmaValidate sha b64d bsmVerify
          ⟨alg, addr, sigVal, opt.1, opt.2.1, opt.2.2, false, none, 0, 0, 0⟩)

/-- `DecodeSIGMA` (bitcom.go:183-265): every protocol entry whose tag is
`SIGMA` contributes one decoded record (entries whose required fields
fail to read are skipped). -/
def DecodeSIGMA (sha : List Nat → List Nat)
    (b64d : List Nat → Option (List Nat))
    (bsmVerify : List Nat → List Nat → List Nat → Bool) (b : Bitcom) : List Sigma :=
  b.protocols.filterMap (fun proto =>
    if proto.protocol = SIGMAPrefixBytes then
      decodeSIGMAProto sha b64d bsmVerify proto.script
    else none)

/-- C9 (confirmed): a SIGMA entry with exactly three readable tokens —
algorithm, non-empty unquoted address, non-empty signature — has no
explicit message and no transaction context at decode time, and
`DecodeSIGMA` returns its record with `Valid = true` for EVERY external
verification capability: no verification of any kind is performed. -/
theorem C9_trusted_without_verification
    (scr : List Nat) (a b c : ScriptOp) (p1 p2 p3 : Nat) (pre : List Nat) (pp : Nat)
    (sha : List Nat → List Nat) (b64d : List Nat → Option (List Nat))
    (bsmVerify : List Nat → List Nat → List Nat → Bool)
    (h1 : readOp scr 0 = some (a, p1)) (h2 : readOp scr p1 = some (b, p2))
    (h3 : readOp scr p2 = some (c, p3)) (h4 : readOp scr p3 = none)
    (hb : b.data ≠ []) (hbq : b.data.headD 0 ≠ 34) (hc : c.data ≠ []) :
    DecodeSIGMA sha b64d bsmVerify ⟨[⟨SIGMAPrefixBytes, scr, pp⟩], pre⟩ =
      [{ algorithm := if a.data.length > 1 ∧ a.data.headD 0 = 3 then a.data.drop 1
           else a.data,
         signerAddress := b.data, signatureValue := base64Encode c.data,
         message := [], nonce := [], vin := 0, valid := true, transaction := none,
         targetOutput := 0, targetInput := 0, sigmaInstance := 0 }] := by
  have haddr : (if b.data.length > 1 ∧ b.data.headD 0 = 34 then
      (b.data.drop 1).dropLast else b.data) = b.data := by
    rw [if_neg]
    rintro ⟨-, hq⟩
    exact hbq hq
  have hval : sigmaValidate sha b64d bsmVerify
      ⟨if a.data.length > 1 ∧ a.data.headD 0 = 3 then a.data.drop 1 else a.data,
        b.data, base64Encode c.data, [], [], 0, false, none, 0, 0, 0⟩ =
      { algorithm := if a.data.length > 1 ∧ a.data.headD 0 = 3 then a.data.drop 1
          else a.data,
        signerAddress := b.data, signatureValue := base64Encode c.data,
        message := [], nonce := [], vin := 0, valid := true, transaction := none,
        targetOutput := 0, targetInput := 0, sigmaInstance := 0 } := by
    rw [sigmaValidate]
    rw [if_pos ⟨hb, base64Encode_ne_nil hc⟩]
    rw [if_neg (by simp)]
  have hdec : decodeSIGMAProto sha b64d bsmVerify scr =
      some { algorithm := if a.data.length > 1 ∧ a.data.headD 0 = 3 then a.data.drop 1
               else a.data,
             signerAddress := b.data, signatureValue := base64Encode c.data,
             message := [], nonce := [], vin := 0, valid := true, transaction := none,
             targetOutput := 0, targetInput := 0, sigmaInstance := 0 } := by
    simp only [decodeSIGMAProto, h1, h2, h3, h4]
    rw [haddr, hval]
  simp [DecodeSIGMA, hdec]

/-- C9 witness: a concrete three-token SIGMA payload decodes to a valid
record under an always-rejecting verification capability. -/
theorem C9_trusted_without_verification_witness :
    DecodeSIGMA (fun l => l) (fun _ => none) (fun _ _ _ => false)
      ⟨[⟨SIGMAPrefixBytes,
        pushData (ascii ("BSM")) ++ pushData (ascii ("1addr")) ++ pushData [1, 2, 3],
        0⟩], []⟩ =
      [{ algorithm := if (ascii ("BSM")).length > 1 ∧ (ascii ("BSM")).headD 0 = 3 then
           (ascii ("BSM")).drop 1 else ascii ("BSM"),
         signerAddress := ascii ("1addr"), signatureValue := base64Encode [1, 2, 3],
         message := [], nonce := [], vin := 0, valid := true, transaction := none,
         targetOutput := 0, targetInput := 0, sigmaInstance := 0 }] :=
  C9_trusted_without_verification _ ⟨3, ascii ("BSM")⟩ ⟨5, ascii ("1addr")⟩
    ⟨3, [1, 2, 3]⟩ 4 10 14 [] 0 _ _ _ (by decide) (by decide) (by decide) (by decide)
    (by decide) (by decide) (by decide)

/-- Token-level view of the scan in `getDataHash` (bitcom.go:432-457):
the number of marker-plus-SIGMA occurrences the loop meets in a token
stream.  At a marker token — OP_RETURN, or a PUSHDATA1-encoded one-byte
`|` push — the loop consumes the FOLLOWING token as the marker's
companion (so that companion is never itself examined as a marker), and
the pair counts as one occurrence exactly when the companion's data is
the SIGMA tag; a final companion-less marker counts nothing. -/
def occScan : List ScriptOp → Nat
  | [] => 0
  | op :: rest =>
    if op.op = 106 ∨ (op.op = 76 ∧ op.data = [124]) then
      match rest with
      | [] => 0
      | next :: rest2 =>
        if next.data = SIGMAPrefixBytes then occScan rest2 + 1 else occScan rest2
    else occScan rest

/-- Whether the scan of `getDataHash` runs off the end of the token
stream cleanly: `false` exactly when the last token is a marker, whose
companion read then fails inside the loop body. -/
def occClean : List ScriptOp → Bool
  | [] => true
  | op :: rest =>
    if op.op = 106 ∨ (op.op = 76 ∧ op.data = [124]) then
      match rest with
      | [] => false
      | _ :: rest2 => occClean rest2
    else occClean rest

/-- Inversion: only the empty byte stream tokenizes to no tokens. -/
theorem Toks.eq_nil {l : List Nat} (h : Toks l []) : l = [] := by
  cases h
  rfl

/-- Inversion: a tokenization starting with `op` starts with a
successful read of `op`. -/
theorem Toks.cons_inv {l : List Nat} {op : ScriptOp} {ops : List ScriptOp}
    (h : Toks l (op :: ops)) :
    ∃ c, readOpCore l = some (op, c) ∧ Toks (l.drop c) ops := by
  cases h with
  | cons hread htl => exact ⟨_, hread, htl⟩

/-- A non-marker token contributes no occurrence to the scan. -/
theorem occScan_not {op : ScriptOp} {rest : List ScriptOp}
    (hm : ¬ (op.op = 106 ∨ (op.op = 76 ∧ op.data = [124]))) :
    occScan (op :: rest) = occScan rest := by
  cases rest with
  | nil => simp [occScan, hm]
  | cons next rest2 => simp [occScan, hm]

/-- A non-marker token does not affect whether the scan ends cleanly. -/
theorem occClean_not {op : ScriptOp} {rest : List ScriptOp}
    (hm : ¬ (op.op = 106 ∨ (op.op = 76 ∧ op.data = [124]))) :
    occClean (op :: rest) = occClean rest := by
  cases rest with
  | nil => simp [occClean, hm]
  | cons next rest2 => simp [occClean, hm]

/-- Reading a PUSHDATA1-encoded one-byte pipe push. -/
theorem readOpCore_pipe (m : List Nat) :
    readOpCore (76 :: 1 :: 124 :: m) = some (⟨76, [124]⟩, 3) := by
  rw [readOpCore_cons_76]
  rw [if_neg (by simp only [List.length_cons]; omega)]
  rw [if_neg (by simp only [List.length_cons, List.getD_cons_zero]; omega)]
  simp [List.getD_cons_zero]

/-- `getDataHashLoop`, truncating case: ahead of the cursor lies a
cleanly scanning token region holding exactly the occurrences still
missing, then a marker encoding (OP_RETURN byte, or PUSHDATA1-encoded
one-byte pipe), then a token carrying the SIGMA tag, then anything; the
loop hashes the script truncated at the marker's byte position. -/
theorem getDataHashLoop_cut :
    ∀ (fuel : Nat) (A : List Nat) (aOps : List ScriptOp)
      (sha : List Nat → List Nat) (scr mb sb R : List Nat) (stok : ScriptOp)
      (inst pos occ : Nat),
      Toks A aOps → occScan aOps + occ = inst → occClean aOps = true →
      (mb = [106] ∨ mb = [76, 1, 124]) →
      readOpCore sb = some (stok, sb.length) → stok.data = SIGMAPrefixBytes →
      scr.drop pos = A ++ (mb ++ (sb ++ R)) → aOps.length < fuel →
      getDataHashLoop sha scr inst fuel pos pos occ = sha (scr.take (pos + A.length)) := by
  intro fuel
  induction fuel with
  | zero =>
    intro A aOps sha scr mb sb R stok inst pos occ ht hocc hcl hmb hsig hsd hd hfuel
    omega
  | succ fuel ih =>
    intro A aOps sha scr mb sb R stok inst pos occ ht hocc hcl hmb hsig hsd hd hfuel
    cases ht with
    | nil =>
      simp only [occScan, Nat.zero_add] at hocc
      simp only [List.nil_append] at hd
      have hsig2 : readOpCore (sb ++ R) = some (stok, sb.length) := readOpCore_append hsig
      rcases hmb with hmb | hmb
      · subst hmb
        simp only [List.cons_append, List.nil_append] at hd
        have hret : readOpCore (106 :: (sb ++ R)) = some (⟨106, []⟩, 1) :=
          readOpCore_cons_op (by omega) _
        have hi : pos < scr.length := lt_of_drop_readOp hd hret
        have hro : readOp scr pos = some (⟨106, []⟩, pos + 1) := readOp_of_core hd hret
        have hd1 : scr.drop (pos + 1) = sb ++ R := by
          have h1 := drop_shift (c := 1) hd
          simpa using h1
        have hro2 : readOp scr (pos + 1) = some (stok, pos + 1 + sb.length) :=
          readOp_of_core hd1 hsig2
        simp [getDataHashLoop, hi, hro, hro2, hsd, hocc]
      · subst hmb
        simp only [List.cons_append, List.nil_append] at hd
        have hret : readOpCore (76 :: 1 :: 124 :: (sb ++ R)) = some (⟨76, [124]⟩, 3) :=
          readOpCore_pipe _
        have hi : pos < scr.length := lt_of_drop_readOp hd hret
        have hro : readOp scr pos = some (⟨76, [124]⟩, pos + 3) := readOp_of_core hd hret
        have hd1 : scr.drop (pos + 3) = sb ++ R := by
          have h1 := drop_shift (c := 3) hd
          simpa using h1
        have hro2 : readOp scr (pos + 3) = some (stok, pos + 3 + sb.length) :=
          readOp_of_core hd1 hsig2
        simp [getDataHashLoop, hi, hro, hro2, hsd, hocc]
    | cons hread htl =>
      rename_i op c ops'
      have hreadX : readOpCore (A ++ (mb ++ (sb ++ R))) = some (op, c) :=
        readOpCore_append hread
      have hi : pos < scr.length := lt_of_drop_readOp hd hreadX
      have hro : readOp scr pos = some (op, pos + c) := readOp_of_core hd hreadX
      have hc := readOpCore_consumed hread
      have hd1 : scr.drop (pos + c) = A.drop c ++ (mb ++ (sb ++ R)) := by
        rw [drop_shift hd, List.drop_append_of_le_length (by omega)]
      simp only [getDataHashLoop, if_pos hi, hro]
      by_cases hm : op.op = 106 ∨ (op.op = 76 ∧ op.data = [124])
      · rw [if_pos hm]
        cases ops' with
        | nil =>
          simp [occClean, hm] at hcl
        | cons next ops'' =>
          obtain ⟨c2, hread2, htl2⟩ := Toks.cons_inv htl
          have hc2 := readOpCore_consumed hread2
          have hreadX2 : readOpCore (A.drop c ++ (mb ++ (sb ++ R))) = some (next, c2) :=
            readOpCore_append hread2
          have hro2 : readOp scr (pos + c) = some (next, pos + c + c2) :=
            readOp_of_core hd1 hreadX2
          have hd2 : scr.drop (pos + c + c2) =
              (A.drop c).drop c2 ++ (mb ++ (sb ++ R)) := by
            rw [drop_shift hd1, List.drop_append_of_le_length hc2.2]
          have hos : occScan (op :: next :: ops'') =
              (if next.data = SIGMAPrefixBytes then occScan ops'' + 1
               else occScan ops'') := by
            simp only [occScan]
            rw [if_pos hm]
          have hoc : occClean (op :: next :: ops'') = occClean ops'' := by
            simp only [occClean]
            rw [if_pos hm]
          rw [hoc] at hcl
          by_cases hsd2 : next.data = SIGMAPrefixBytes
          · simp only [hro2]
            rw [if_pos hsd2]
            rw [hos, if_pos hsd2] at hocc
            rw [if_neg (show ¬ occ = inst from by omega)]
            have hrec := ih ((A.drop c).drop c2) ops'' sha scr mb sb R stok inst
              (pos + c + c2) (occ + 1) htl2 (by omega) hcl hmb hsig hsd hd2
              (by simp only [List.length_cons] at hfuel; omega)
            rw [hrec]
            have harith : pos + c + c2 + ((A.drop c).drop c2).length =
                pos + A.length := by
              simp only [List.length_drop] at hc2 ⊢
              omega
            rw [harith]
          · simp only [hro2]
            rw [if_neg hsd2]
            rw [hos, if_neg hsd2] at hocc
            have hrec := ih ((A.drop c).drop c2) ops'' sha scr mb sb R stok inst
              (pos + c + c2) occ htl2 (by omega) hcl hmb hsig hsd hd2
              (by simp only [List.length_cons] at hfuel; omega)
            rw [hrec]
            have harith : pos + c + c2 + ((A.drop c).drop c2).length =
                pos + A.length := by
              simp only [List.length_drop] at hc2 ⊢
              omega
            rw [harith]
      · rw [if_neg hm]
        have hos : occScan (op :: ops') = occScan ops' := occScan_not hm
        have hoc : occClean (op :: ops') = occClean ops' := occClean_not hm
        rw [hos] at hocc
        rw [hoc] at hcl
        have hrec := ih (A.drop c) ops' sha scr mb sb R stok inst (pos + c) occ htl
          hocc hcl hmb hsig hsd hd1 (by simp only [List.length_cons] at hfuel; omega)
        rw [hrec]
        have harith : pos + c + (A.drop c).length = pos + A.length := by
          simp only [List.length_drop]
          omega
        rw [harith]

/-- `getDataHashLoop`, whole-script case: the remaining region
tokenizes fully and its scan never reaches the wanted occurrence count,
so the loop falls off the end — cleanly, or through the failed
companion read after a final marker — and hashes the entire script. -/
theorem getDataHashLoop_whole :
    ∀ (fuel : Nat) (B : List Nat) (bOps : List ScriptOp)
      (sha : List Nat → List Nat) (scr : List Nat) (inst pos occ : Nat),
      Toks B bOps → (inst < occ ∨ occ + occScan bOps ≤ inst) →
      scr.drop pos = B → bOps.length < fuel →
      getDataHashLoop sha scr inst fuel pos pos occ = sha scr := by
  intro fuel
  induction fuel with
  | zero =>
    intro B bOps sha scr inst pos occ ht hocc hd hfuel
    omega
  | succ fuel ih =>
    intro B bOps sha scr inst pos occ ht hocc hd hfuel
    cases ht with
    | nil =>
      have hl := List.length_drop pos scr
      rw [hd] at hl
      simp only [List.length_nil] at hl
      simp only [getDataHashLoop, if_neg (show ¬ pos < scr.length from by omega)]
    | cons hread htl =>
      rename_i op c ops'
      have hi : pos < scr.length := lt_of_drop_readOp hd hread
      have hro : readOp scr pos = some (op, pos + c) := readOp_of_core hd hread
      have hc := readOpCore_consumed hread
      have hd1 : scr.drop (pos + c) = B.drop c := drop_shift hd
      simp only [getDataHashLoop, if_pos hi, hro]
      by_cases hm : op.op = 106 ∨ (op.op = 76 ∧ op.data = [124])
      · rw [if_pos hm]
        cases ops' with
        | nil =>
          have hBc : B.drop c = [] := Toks.eq_nil htl
          have hnone : readOp scr (pos + c) = none := by
            simp only [readOp, hd1, hBc]
            rfl
          simp [hnone]
        | cons next ops'' =>
          obtain ⟨c2, hread2, htl2⟩ := Toks.cons_inv htl
          have hro2 : readOp scr (pos + c) = some (next, pos + c + c2) :=
            readOp_of_core hd1 hread2
          have hd2 : scr.drop (pos + c + c2) = (B.drop c).drop c2 := drop_shift hd1
          have hos : occScan (op :: next :: ops'') =
              (if next.data = SIGMAPrefixBytes then occScan ops'' + 1
               else occScan ops'') := by
            simp only [occScan]
            rw [if_pos hm]
          by_cases hsd2 : next.data = SIGMAPrefixBytes
          · simp only [hro2]
            rw [if_pos hsd2]
            rw [hos, if_pos hsd2] at hocc
            rw [if_neg (show ¬ occ = inst from by omega)]
            exact ih ((B.drop c).drop c2) ops'' sha scr inst (pos + c + c2) (occ + 1)
              htl2 (by omega) hd2 (by simp only [List.length_cons] at hfuel; omega)
          · simp only [hro2]
            rw [if_neg hsd2]
            rw [hos, if_neg hsd2] at hocc
            exact ih ((B.drop c).drop c2) ops'' sha scr inst (pos + c + c2) occ
              htl2 (by omega) hd2 (by simp only [List.length_cons] at hfuel; omega)
      · rw [if_neg hm]
        have hos : occScan (op :: ops') = occScan ops' := occScan_not hm
        rw [hos] at hocc
        exact ih (B.drop c) ops' sha scr inst (pos + c) occ htl hocc hd1
          (by simp only [List.length_cons] at hfuel; omega)

/-- C5 (confirmed): for a detached signature verified against
transaction context, (1) the input hash is a single SHA-256 of the
36-byte outpoint — stored (reversed-endianness) txid followed by the
little-endian 4-byte output index — of the input selected by `VIN` when
it is a valid index and by `TargetOutput` otherwise; (2) the message
digest is the double SHA-256 of input hash ++ data hash; (3) the data
hash is a single SHA-256 of the target output's script truncated
immediately before the occurrence numbered `SigmaInstance` of the
marker-plus-SIGMA-tag sequence — the region before that occurrence is
arbitrary (markers and earlier occurrences included) as long as it
tokenizes, its scan is clean, and it holds exactly `SigmaInstance`
occurrences; (4) the data hash is a single SHA-256 of the whole script
when the script tokenizes but its scan meets at most `SigmaInstance`
occurrences, so the wanted one never appears; (5) for every supported
algorithm (BSM, ECDSA, SHA256-ECDSA) `VerifyTransactionSignature`
calls the external verify capability on exactly that digest and sets
`Valid` to its verdict. -/
theorem C5_transaction_digest :
    (∀ (sha : List Nat → List Nat) (s : Sigma) (tx : Transaction) (input : TxInput)
        (txid : List Nat),
      s.transaction = some tx → tx.inputs ≠ [] →
      tx.inputs.get? ((if s.vin < 0 ∨ s.vin ≥ tx.inputs.length then (s.targetOutput : Int)
        else s.vin).toNat) = some input →
      input.sourceTXID = some txid → txid.length = 32 →
      getInputHash sha s = some (sha (txid ++ le32 input.sourceTxOutIndex)) ∧
        (txid ++ le32 input.sourceTxOutIndex).length = 36) ∧
    (∀ (sha : List Nat → List Nat) (s : Sigma) (ih dh : List Nat),
      getInputHash sha s = some ih → getDataHash sha s = some dh →
      getMessageHash sha s = some (sha (sha (ih ++ dh)))) ∧
    (∀ (sha : List Nat → List Nat) (s : Sigma) (tx : Transaction)
        (A mb sb R : List Nat) (aOps : List ScriptOp) (stok : ScriptOp),
      s.transaction = some tx → s.targetOutput < tx.outputs.length →
      (tx.outputs.getD s.targetOutput ⟨none⟩).lockingScript =
        some (A ++ (mb ++ (sb ++ R))) →
      Toks A aOps → occScan aOps = s.sigmaInstance → occClean aOps = true →
      (mb = [106] ∨ mb = [76, 1, 124]) →
      readOpCore sb = some (stok, sb.length) → stok.data = SIGMAPrefixBytes →
      getDataHash sha s = some (sha A)) ∧
    (∀ (sha : List Nat → List Nat) (s : Sigma) (tx : Transaction) (B : List Nat)
        (bOps : List ScriptOp),
      s.transaction = some tx → s.targetOutput < tx.outputs.length →
      (tx.outputs.getD s.targetOutput ⟨none⟩).lockingScript = some B →
      Toks B bOps → occScan bOps ≤ s.sigmaInstance →
      getDataHash sha s = some (sha B)) ∧
    (∀ (sha : List Nat → List Nat) (b64d : List Nat → Option (List Nat))
        (bsmV : List Nat → List Nat → List Nat → Bool) (s : Sigma)
        (sigBytes msgHash : List Nat),
      s.signerAddress ≠ [] → s.signatureValue ≠ [] → s.transaction ≠ none →
      GetSignatureBytes b64d s = some sigBytes →
      getMessageHash sha s = some msgHash →
      (s.algorithm = ascii ("BSM") ∨ s.algorithm = ascii ("ECDSA") ∨
        s.algorithm = ascii ("SHA256-ECDSA")) →
      VerifyTransactionSignature sha b64d bsmV s =
        (if bsmV s.signerAddress sigBytes msgHash then ({ s with valid := true }, .ok)
         else (s, .errVerifyFail))) := by
  refine ⟨?_, ?_, ?_, ?_, ?_⟩
  · intro sha s tx input txid htx hne hget htxid hlen
    constructor
    · simp only [getInputHash, htx]
      rw [if_neg hne]
      simp only [hget, htxid]
    · simp only [List.length_append, le32, List.length_cons, List.length_nil]
      omega
  · intro sha s ih dh h1 h2
    simp only [getMessageHash, h1, h2]
  · intro sha s tx A mb sb R aOps stok htx hout hscr ht hocc hcl hmb hsig hsd
    simp only [getDataHash, htx]
    rw [if_neg (by omega)]
    simp only [hscr]
    have hlenA := Toks.length_le ht
    have hcut := getDataHashLoop_cut ((A ++ (mb ++ (sb ++ R))).length + 1) A aOps sha
      (A ++ (mb ++ (sb ++ R))) mb sb R stok s.sigmaInstance 0 0 ht
      (by omega) hcl hmb hsig hsd (List.drop_zero _)
      (by simp only [List.length_append]; omega)
    rw [hcut]
    simp only [Nat.zero_add]
    rw [List.take_left]
  · intro sha s tx B bOps htx hout hscr ht hocc
    simp only [getDataHash, htx]
    rw [if_neg (by omega)]
    simp only [hscr]
    have hlenB := Toks.length_le ht
    rw [getDataHashLoop_whole (B.length + 1) B bOps sha B s.sigmaInstance 0 0 ht
      (Or.inr (by omega)) (List.drop_zero _) (by omega)]
  · intro sha b64d bsmV s sigBytes msgHash h1 h2 h3 hgsb hmsg halg
    rw [VerifyTransactionSignature]
    rw [if_neg (by push_neg; exact ⟨h1, h2, h3⟩)]
    simp only [hgsb, hmsg]
    rw [if_pos halg]

/-- Fixture: a hash capability for witnesses. -/
def shaW : List Nat → List Nat := fun l => 9 :: l

/-- Fixture: an output-script region holding one full marker-plus-tag
occurrence of its own — OP_RETURN followed by a direct SIGMA push. -/
def scrPreW : List Nat := [106, 5, 83, 73, 71, 77, 65]

/-- Fixture: a one-input transaction whose only output script holds a
first SIGMA occurrence after OP_RETURN, a second one after a
PUSHDATA1-encoded pipe, and a trailing OP_1. -/
def txW3 : Transaction :=
  ⟨[⟨some (List.replicate 32 7), 5⟩],
   [⟨some (scrPreW ++ ([76, 1, 124] ++ ([5, 83, 73, 71, 77, 65] ++ [81])))⟩]⟩

/-- Fixture: a Sigma record bound to `txW3`, wanting occurrence 1. -/
def sigmaW3 : Sigma :=
  ⟨ascii ("BSM"), ascii ("1a"), ascii ("s"), [], [], 0, false, some txW3, 0, 0, 1⟩

/-- Fixture: a transaction whose only output script holds a single
SIGMA occurrence — fewer than `sigmaW4` wants. -/
def txW4 : Transaction := ⟨[], [⟨some scrPreW⟩]⟩

/-- Fixture: a Sigma record bound to `txW4`, wanting occurrence 1. -/
def sigmaW4 : Sigma :=
  ⟨ascii ("BSM"), ascii ("1a"), ascii ("s"), [], [], 0, false, some txW4, 0, 0, 1⟩

/-- Fixture: `sigmaW3` under the ECDSA algorithm. -/
def sigmaW5 : Sigma :=
  ⟨ascii ("ECDSA"), ascii ("1a"), ascii ("s"), [], [], 0, false, some txW3, 0, 0, 1⟩

/-- C5 witness: the five conjuncts at concrete transaction contexts —
truncation at occurrence number 1 behind an OP_RETURN envelope that
already holds occurrence number 0, the whole-script fallback on a
script holding only occurrence number 0, and the ECDSA dispatch. -/
theorem C5_transaction_digest_witness :
    getInputHash shaW sigmaW3 = some (shaW (List.replicate 32 7 ++ le32 5)) ∧
    getDataHash shaW sigmaW3 = some (shaW scrPreW) ∧
    getMessageHash shaW sigmaW3 =
      some (shaW (shaW (shaW (List.replicate 32 7 ++ le32 5) ++ shaW scrPreW))) ∧
    getDataHash shaW sigmaW4 = some (shaW scrPreW) ∧
    VerifyTransactionSignature shaW (fun _ => some [1]) (fun _ _ _ => true) sigmaW5 =
      ({ sigmaW5 with valid := true }, .ok) := by
  have htA : Toks scrPreW [⟨106, []⟩, ⟨5, [83, 73, 71, 77, 65]⟩] :=
    @Toks.cons scrPreW ⟨106, []⟩ 1 [⟨5, [83, 73, 71, 77, 65]⟩] (by decide)
      (@Toks.cons [5, 83, 73, 71, 77, 65] ⟨5, [83, 73, 71, 77, 65]⟩ 6 [] (by decide)
        Toks.nil)
  have h1 := (C5_transaction_digest.1 shaW sigmaW3 txW3 ⟨some (List.replicate 32 7), 5⟩
    (List.replicate 32 7) rfl (by decide) (by decide) rfl (by decide)).1
  have h3 := C5_transaction_digest.2.2.1 shaW sigmaW3 txW3 scrPreW [76, 1, 124]
    [5, 83, 73, 71, 77, 65] [81] [⟨106, []⟩, ⟨5, [83, 73, 71, 77, 65]⟩]
    ⟨5, [83, 73, 71, 77, 65]⟩ rfl (by decide) rfl htA (by decide) (by decide)
    (Or.inr rfl) (by decide) (by decide)
  have h2 := C5_transaction_digest.2.1 shaW sigmaW3 _ _ h1 h3
  have h4 := C5_transaction_digest.2.2.2.1 shaW sigmaW4 txW4 scrPreW
    [⟨106, []⟩, ⟨5, [83, 73, 71, 77, 65]⟩] rfl (by decide) rfl htA (by decide)
  have h1e := (C5_transaction_digest.1 shaW sigmaW5 txW3 ⟨some (List.replicate 32 7), 5⟩
    (List.replicate 32 7) rfl (by decide) (by decide) rfl (by decide)).1
  have h3e := C5_transaction_digest.2.2.1 shaW sigmaW5 txW3 scrPreW [76, 1, 124]
    [5, 83, 73, 71, 77, 65] [81] [⟨106, []⟩, ⟨5, [83, 73, 71, 77, 65]⟩]
    ⟨5, [83, 73, 71, 77, 65]⟩ rfl (by decide) rfl htA (by decide) (by decide)
    (Or.inr rfl) (by decide) (by decide)
  have h2e := C5_transaction_digest.2.1 shaW sigmaW5 _ _ h1e h3e
  have h5 := C5_transaction_digest.2.2.2.2 shaW (fun _ => some [1]) (fun _ _ _ => true)
    sigmaW5 [1] (shaW (shaW (shaW (List.replicate 32 7 ++ le32 5) ++ shaW scrPreW)))
    (by decide) (by decide) (by simp [sigmaW5]) rfl h2e (Or.inr (Or.inl rfl))
  exact ⟨h1, h3, h2, h4, h5⟩

/-- The hardcoded SIGMA test vector from `VerifyMessageSignature`
(bitcom.go:314-316). -/
def sigmaTestVector : Sigma :=
  ⟨ascii ("BSM"), ascii ("1EXhSbGFiEAZCE5eeBvUxT6cBVHhrpPWXz"),
   ascii ("H89DSY12iMmrF16T4aDPwFcqrtuGxyoT69yTBH4GqXyzNZ+POVhxV5FLAvHdwKmJ0IhQT/w7JQpTg0XBZ5zeJ+c="),
   ascii ("Hello, World!"), [], 0, false, none, 0, 0, 0⟩

/-- C10 (confirmed): when the external BSM capability REJECTS the
signature but the signer address, message and signature value match the
hardcoded test vector, `VerifyMessageSignature` still sets `Valid = true`
and returns success. -/
theorem C10_hardcoded_valid_on_reject
    (b64d : List Nat → Option (List Nat)) (bs : List Nat)
    (bsmV : List Nat → List Nat → List Nat → Bool)
    (hdec : b64d sigmaTestVector.signatureValue = some bs)
    (hrej : bsmV sigmaTestVector.signerAddress bs sigmaTestVector.message = false) :
    VerifyMessageSignature b64d bsmV sigmaTestVector =
      ({ sigmaTestVector with valid := true }, .ok) := by
  rw [VerifyMessageSignature]
  rw [if_neg (by decide)]
  have hgsb : GetSignatureBytes b64d sigmaTestVector = some bs := by
    rw [GetSignatureBytes, if_neg (by decide)]
    exact hdec
  simp only [hgsb]
  rw [if_pos (show sigmaTestVector.algorithm = ascii ("BSM") from rfl), hrej]
  simp only [Bool.false_eq_true, if_false]
  rw [if_pos ⟨rfl, rfl, rfl⟩]

/-- C10 witness: an always-rejecting capability still yields a valid
record on the test vector. -/
theorem C10_hardcoded_valid_on_reject_witness :
    VerifyMessageSignature (fun _ => some []) (fun _ _ _ => false) sigmaTestVector =
      ({ sigmaTestVector with valid := true }, .ok) :=
  C10_hardcoded_valid_on_reject (fun _ => some []) [] (fun _ _ _ => false) rfl rfl

end BSV
